import Mathlib

/-!
# standardese: comment identifiers and the comment registry

A shallow embedding of `include/standardese/comment.hpp`.

* Character strings (`std::string`, `standardese::string`, `const char*` buffers) are
  lists of characters.  A string handed to the library is a C++ string value: it holds
  no NUL character and its size is a `size_t` below `npos` (`well_formed`).
* `assert` is modelled as enabled: a failed assertion, a read past the end of a
  character buffer and a thrown `std::out_of_range` are the three faults of `Result`.
* `size_t` is 64 bits wide; `unsigned` line numbers are natural numbers (no arithmetic
  is done on them).
-/

namespace standardese

/-! ## Results of calls that can fail -/

/-- Outcome of a call: a value, a failed `assert`, a read past the end of a character
buffer, or a `std::out_of_range` exception. -/
inductive Result (α : Type) where
  | ok (value : α)
  | assertion_failed
  | out_of_bounds
  | out_of_range
  deriving DecidableEq, Repr

/-- True when the call produced a value. -/
def Result.returns {α : Type} : Result α → Bool
  | .ok _ => true
  | _ => false

/-! ## Character strings -/

/-- The NUL character that terminates a character buffer. -/
def NUL : Char := Char.ofNat 0

/-- A C++ string value: no embedded NUL and a size below `npos` (2^64 - 1). -/
def well_formed (s : List Char) : Prop := NUL ∉ s ∧ s.length < 2 ^ 64 - 1

instance (s : List Char) : Decidable (well_formed s) := by
  unfold well_formed
  exact inferInstance

/-- The character buffer behind `c_str()`: the characters followed by the terminator. -/
def buffer (s : List Char) : List Char := s ++ [NUL]

/-- Reading a NUL-terminated string through a `const char*` (what
`std::string(const char*)` does): the characters up to the first NUL. Running off the
buffer without meeting a NUL is a read out of bounds. -/
def read_c_string : List Char → Result (List Char)
  | [] => .out_of_bounds
  | c :: rest =>
    if c = NUL then .ok []
    else
      match read_c_string rest with
      | .ok r => .ok (c :: r)
      | e => e

/-- The string a `const char*` obtained from `s.c_str()` denotes: the characters of `s`
before its first NUL. -/
def c_str (s : List Char) : List Char := s.takeWhile (fun c => c != NUL)

/-- The value `std::string::npos`, the largest `size_t`. -/
def npos : Nat := 2 ^ 64 - 1

/-- Highest position of `s` holding one of `chars`, if any. -/
def last_index_of (chars : List Char) : List Char → Option Nat
  | [] => none
  | c :: cs =>
    match last_index_of chars cs with
    | some i => some (i + 1)
    | none => if c ∈ chars then some 0 else none

/-- The member `std::string::find_last_of(chars)`: the highest position holding one of
`chars`, or `npos` when there is none. -/
def find_last_of (s chars : List Char) : Nat :=
  match last_index_of chars s with
  | some i => i
  | none => npos

/-- The member `std::string::substr(pos)`: throws `std::out_of_range` when
`pos > size()`, otherwise the characters from `pos` on. -/
def substr (s : List Char) (pos : Nat) : Result (List Char) :=
  if pos > s.length then .out_of_range else .ok (s.drop pos)

/-- The characters of the literal `"/\\:"` in `get_file_name`. -/
def path_separators : List Char := ['/', '\\', ':']

/-- The private member `comment_id::get_file_name`:
`path.substr(path.find_last_of("/\\:") + 1)`, the addition being done on `size_t`
(so `npos + 1` wraps to 0). -/
def get_file_name (path : List Char) : Result (List Char) :=
  substr path ((find_last_of path path_separators + 1) % 2 ^ 64)

/-! ## comment_id -/

/-- The class `comment_id`: the stored string and the line. -/
structure comment_id where
  file_name_or_name_ : List Char
  line_ : Nat
  deriving DecidableEq, Repr

namespace comment_id

/-- The constructor `comment_id(const string& file_name, unsigned line)`. -/
def mk_location (file_name : List Char) (line : Nat) : Result comment_id :=
  match get_file_name (c_str file_name) with
  | .ok f => if line != 0 then .ok ⟨f, line⟩ else .assertion_failed
  | .assertion_failed => .assertion_failed
  | .out_of_bounds => .out_of_bounds
  | .out_of_range => .out_of_range

/-- The constructor
`comment_id(const string& file_name, unsigned line, const string& entity_name)`. -/
def mk_inline_location (file_name : List Char) (line : Nat) (entity_name : List Char) :
    Result comment_id :=
  match get_file_name (c_str file_name) with
  | .ok f =>
    if line != 0 then .ok ⟨'$' :: (f ++ '$' :: c_str entity_name), line⟩
    else .assertion_failed
  | .assertion_failed => .assertion_failed
  | .out_of_bounds => .out_of_bounds
  | .out_of_range => .out_of_range

/-- The constructor `explicit comment_id(string name)`. -/
def mk_name (name : List Char) : comment_id := ⟨name, 0⟩

/-- The member `is_name()`. -/
def is_name (id : comment_id) : Bool := id.line_ == 0

/-- The member `is_location()`; `c_str()[0]` is the first character of the buffer. -/
def is_location (id : comment_id) : Bool :=
  !id.is_name && (buffer id.file_name_or_name_).head? != some '$'

/-- The member `is_inline_location()`. -/
def is_inline_location (id : comment_id) : Bool :=
  !id.is_name && !id.is_location

/-- The loop of `file_name()`:
`for (ptr = ...; *ptr != '$'; ++ptr) result += *ptr;` run on the rest of the buffer. -/
def file_name_loop : List Char → Result (List Char)
  | [] => .out_of_bounds
  | c :: rest =>
    if c = '$' then .ok []
    else
      match file_name_loop rest with
      | .ok r => .ok (c :: r)
      | e => e

/-- The member `file_name()`. -/
def file_name (id : comment_id) : Result (List Char) :=
  if id.is_name then .assertion_failed
  else if id.is_location then .ok id.file_name_or_name_
  else if !id.is_inline_location then .assertion_failed
  else file_name_loop ((buffer id.file_name_or_name_).drop 1)

/-- The member `line()`. -/
def line (id : comment_id) : Result Nat :=
  if id.is_location || id.is_inline_location then .ok id.line_ else .assertion_failed

/-- The loop of `inline_entity_name()`: `while (*ptr != '$') ++ptr;`, giving the rest
of the buffer from the `'$'` it stops at. -/
def inline_entity_name_loop : List Char → Result (List Char)
  | [] => .out_of_bounds
  | c :: rest => if c = '$' then .ok (c :: rest) else inline_entity_name_loop rest

/-- The member `inline_entity_name()`: after the loop, `++ptr; return ptr;` builds the
result from the NUL-terminated rest of the buffer. -/
def inline_entity_name (id : comment_id) : Result (List Char) :=
  if !id.is_inline_location then .assertion_failed
  else
    match inline_entity_name_loop ((buffer id.file_name_or_name_).drop 1) with
    | .ok at_dollar => read_c_string (at_dollar.drop 1)
    | e => e

/-- The member `unique_name()`. -/
def unique_name (id : comment_id) : Result (List Char) :=
  if id.is_name then .ok id.file_name_or_name_ else .assertion_failed

end comment_id

/-! ## Reference notions -/

/-- True for the three characters `get_file_name` splits a path at. -/
def is_path_separator (c : Char) : Bool := c == '/' || c == '\\' || c == ':'

/-- The final path component, stated on its own: the part of the path after its last
separator, the whole path when it has none. -/
def final_component (p : List Char) : List Char :=
  (p.reverse.takeWhile (fun c => !is_path_separator c)).reverse

/-! ## Comments -/

/-- The enumeration `section_type` (config.hpp declares it as
`enum class section_type : unsigned`; its enumerators are outside the given sources):
`brief`, or another section given by its underlying value. -/
inductive section_type where
  | brief
  | other (value : Nat)
  deriving DecidableEq, Repr

/-- A child of a markdown container, as far as `md_comment` inspects it: a paragraph
with its section type, or an entity of another type. -/
inductive md_entity where
  | paragraph (section_kind : section_type)
  | other
  deriving DecidableEq, Repr

/-- The class `md_comment`: a container of child entities. -/
structure md_comment where
  children : List md_entity
  deriving DecidableEq, Repr

/-- The class `comment`: the unique-name override, the content and the exclusion flag. -/
structure comment where
  unique_name_override_ : List Char
  content_ : md_comment
  excluded_ : Bool
  deriving DecidableEq, Repr

/-- The values of `md_entity::type` as far as `md_comment` tells them apart:
`paragraph_t`, or the type of another entity. -/
inductive md_entity.type where
  | paragraph_t
  | other_t
  deriving DecidableEq, Repr

/-- The member `get_entity_type()` of a child. -/
def md_entity.get_entity_type : md_entity → md_entity.type
  | .paragraph _ => .paragraph_t
  | .other => .other_t

/-- The member `md_paragraph::get_section_type()`, read after the `static_cast` to
`md_paragraph&`; only a paragraph has one. -/
def md_entity.get_section_type : md_entity → Option section_type
  | .paragraph section_kind => some section_kind
  | .other => none

namespace md_comment

/-- The member `md_paragraph& get_brief()`: the two assertions on the first child
`*begin()`, then that child. Dereferencing `begin()` of a container without children is
a read out of bounds. -/
def get_brief (c : md_comment) : Result md_entity :=
  match c.children with
  | [] => .out_of_bounds
  | first :: _ =>
    if first.get_entity_type != .paragraph_t then .assertion_failed
    else if first.get_section_type != some .brief then .assertion_failed
    else .ok first

/-- The member `const md_paragraph& get_brief() const`. -/
def get_brief_const (c : md_comment) : Result md_entity :=
  match c.children with
  | [] => .out_of_bounds
  | first :: _ =>
    if first.get_entity_type != .paragraph_t then .assertion_failed
    else if first.get_section_type != some .brief then .assertion_failed
    else .ok first

end md_comment

namespace comment

/-- The constructor `comment()`: `content_(md_comment::make()), excluded_(false)`, then
`assert(content_)`. The body of `md_comment::make` is outside the given sources; `made`
is what it returned, `none` for a null pointer. The override string starts empty. -/
def mk_default (made : Option md_comment) : Result comment :=
  match made with
  | some content => .ok ⟨[], content, false⟩
  | none => .assertion_failed

/-- The member `get_unique_name_override()`. -/
def get_unique_name_override (c : comment) : List Char := c.unique_name_override_

/-- The member `has_unique_name_override()`. -/
def has_unique_name_override (c : comment) : Bool := !c.get_unique_name_override.isEmpty

/-- The member `set_unique_name_override(std::string name)`. -/
def set_unique_name_override (c : comment) (name : List Char) : comment :=
  { c with unique_name_override_ := name }

/-- The member `is_excluded()`. -/
def is_excluded (c : comment) : Bool := c.excluded_

/-- The member `set_excluded(bool b)`. -/
def set_excluded (c : comment) (b : Bool) : comment := { c with excluded_ := b }

end comment

/-! ## The key comparator -/

/-- The comparison `operator<` of two strings: lexicographic on the characters. -/
def string_lt : List Char → List Char → Bool
  | _, [] => false
  | [], _ :: _ => true
  | a :: x, b :: y =>
    if a < b then true else if b < a then false else string_lt x y

/-- What an identifier is compared by: the name of a Name-form identifier; the file
name, the line and the inline entity name (absent on a plain location) of a
location-bearing one. -/
inductive id_key where
  | name (unique_name : List Char)
  | location (file_name : List Char) (line : Nat) (entity : Option (List Char))
  deriving DecidableEq, Repr

/-- The file name and the entity name held by a stored string of the shape
`'$' f '$' e`, `f` being the part up to the first `'$'` after the leading one, as
`file_name()` and `inline_entity_name()` split it; nothing for any other stored
string. -/
def split_inline : List Char → Option (List Char × List Char)
  | [] => none
  | c :: r =>
    if c = '$' ∧ '$' ∈ r then
      some (r.takeWhile (fun x => x != '$'), (r.dropWhile (fun x => x != '$')).drop 1)
    else none

/-- The parts of an identifier the comparator looks at: the name of a Name-form
identifier; for a stored string `'$' f '$' e` the file name `f`, the line and the
entity name `e`; for any other stored string that string as file name, the line and no
entity name. -/
def comment_id.key (id : comment_id) : id_key :=
  if id.is_name then .name id.file_name_or_name_
  else
    match split_inline id.file_name_or_name_ with
    | some (f, e) => .location f id.line_ (some e)
    | none => .location id.file_name_or_name_ id.line_ none

/-- Order of two inline entity names, an absent one before any name. -/
def entity_lt : Option (List Char) → Option (List Char) → Bool
  | none, some _ => true
  | some x, some y => string_lt x y
  | _, none => false

/-- Order of two keys: names by name; locations by file name, then line, then inline
entity name; a name before a location. -/
def id_key.lt : id_key → id_key → Bool
  | .name a, .name b => string_lt a b
  | .name _, .location _ _ _ => true
  | .location _ _ _, .name _ => false
  | .location fa la ea, .location fb lb eb =>
    string_lt fa fb ||
      (fa == fb && (decide (la < lb) || (la == lb && entity_lt ea eb)))

namespace detail

/-- Modelled from the spec: the body of `detail::comment_compare::operator()`, which
comment.hpp only declares. Spec: "Name-form identifiers compare by name; Location and
Inline-location identifiers compare by (file_name, line) first, then by
inline_entity_name if both are inline (empty/absent sorts before any name)." The spec
does not order a Name-form identifier against a location-bearing one; here the
Name-form identifier comes first. The parts are taken from the stored string and the
line (`comment_id.key`), so that every identifier has them. -/
def comment_compare (id_a id_b : comment_id) : Bool :=
  id_key.lt id_a.key id_b.key

/-- Key equivalence of `std::map`: neither identifier orders before the other. -/
def equivalent (id_a id_b : comment_id) : Bool :=
  !comment_compare id_a id_b && !comment_compare id_b id_a

end detail

/-! ## comment_registry -/

/-- The class `comment_registry`: the map `comments_` as the list of its entries, in
the order they were inserted (the mutex is not modelled). -/
structure comment_registry where
  comments_ : List (comment_id × comment)
  deriving DecidableEq, Repr

/-- The external class `cpp_entity`, as far as the lookup reads it: the name of the
entity, and whether it is one of several entities sharing a source line. -/
structure cpp_entity where
  name : List Char
  shares_line : Bool
  deriving DecidableEq, Repr

/-- The external class `cpp_entity_registry`, as far as the lookup calls it: the
canonical unique name of an entity and its declared location (file, line), each
possibly absent. -/
structure cpp_entity_registry where
  unique_name : cpp_entity → Option (List Char)
  location : cpp_entity → Option (List Char × Nat)

namespace comment_registry

/-- The registry before any registration. -/
def empty : comment_registry := ⟨[]⟩

/-- The member `find` of `std::map` on `comments_`: the comment of the entry whose key
is equivalent to `id`, if there is one. -/
def find (reg : comment_registry) (id : comment_id) : Option comment :=
  match reg.comments_.find? (fun entry => detail.equivalent entry.1 id) with
  | some entry => some entry.2
  | none => none

/-- Modelled from the spec: the body of `comment_registry::register_comment`, which
comment.hpp only declares. Spec: "Inserts the comment under the identifier. Returns
whether the insertion succeeded (i.e., no prior comment already held that identifier).
A duplicate registration under an identical identifier is ... not silently overwritten
or merged". The result is the returned flag and the registry afterwards. -/
def register_comment (reg : comment_registry) (id : comment_id) (c : comment) :
    Bool × comment_registry :=
  match reg.find id with
  | some _ => (false, reg)
  | none => (true, ⟨reg.comments_ ++ [(id, c)]⟩)

/-- A run of registrations, one after the other; the returned flags are dropped. -/
def register_all (reg : comment_registry) : List (comment_id × comment) → comment_registry
  | [] => reg
  | (id, c) :: rest => register_all (reg.register_comment id c).2 rest

/-- Modelled from the spec: the body of `comment_registry::lookup_comment`, which
comment.hpp only declares. Spec: "1. Ask the external entity registry for the entity's
canonical unique name; if present, probe the registry with a Name-form identifier built
from it. 2. Otherwise, ask the external entity registry for the entity's declared source
location (file, line); probe with a Location-form identifier. 3. If no Location match
and the entity is known to be one of several sharing a source line, probe with an
Inline-location identifier built from (file, line, entity's own name). 4. No match at
any stage: no comment for this entity." The probes are built by the constructors of
`comment_id`, whose faults are passed on; `none` is the null pointer. -/
def lookup_comment (reg : comment_registry) (registry : cpp_entity_registry)
    (e : cpp_entity) : Result (Option comment) :=
  match (registry.unique_name e).bind (fun u => reg.find (comment_id.mk_name u)) with
  | some c => .ok (some c)
  | none =>
    match registry.location e with
    | none => .ok none
    | some (file, line) =>
      match comment_id.mk_location file line with
      | .ok loc =>
        match reg.find loc with
        | some c => .ok (some c)
        | none =>
          if e.shares_line then
            match comment_id.mk_inline_location file line e.name with
            | .ok inl => .ok (reg.find inl)
            | .assertion_failed => .assertion_failed
            | .out_of_bounds => .out_of_bounds
            | .out_of_range => .out_of_range
          else .ok none
      | .assertion_failed => .assertion_failed
      | .out_of_bounds => .out_of_bounds
      | .out_of_range => .out_of_range

end comment_registry

/-! ## Sample data -/

/-- A comment marked as excluded. -/
def sample_excluded : comment := ⟨[], ⟨[]⟩, true⟩

/-- A comment with an override, not excluded. -/
def sample_override : comment := ⟨"widget::length".toList, ⟨[]⟩, false⟩

/-- A comment with neither mark. -/
def sample_plain : comment := ⟨[], ⟨[]⟩, false⟩

/-- An entity registry resolving every entity to the unique name "widget::size" and the
location ("src/report.h", 42). -/
def sample_named_located : cpp_entity_registry :=
  ⟨fun _ => some "widget::size".toList, fun _ => some ("src/report.h".toList, 42)⟩

/-- An entity registry that resolves nothing. -/
def sample_unresolved : cpp_entity_registry := ⟨fun _ => none, fun _ => none⟩

/-- The entity `size`, alone on its line. -/
def sample_entity : cpp_entity := ⟨"size".toList, false⟩

/-- An entity registry resolving every entity to the location ("macros.h", 10) and to
no unique name. -/
def sample_macros : cpp_entity_registry :=
  ⟨fun _ => none, fun _ => some ("macros.h".toList, 10)⟩

/-- The entity `RED`, one of several on its line. -/
def sample_red : cpp_entity := ⟨"RED".toList, true⟩

/-- The entity `BLUE`, one of several on its line. -/
def sample_blue : cpp_entity := ⟨"BLUE".toList, true⟩

/-! ## Lemmas on character strings -/

theorem mem_path_separators (c : Char) :
    c ∈ path_separators ↔ is_path_separator c = true := by
  simp [path_separators, is_path_separator, or_assoc]

theorem c_str_of_no_nul {s : List Char} (h : NUL ∉ s) : c_str s = s := by
  unfold c_str
  rw [List.takeWhile_eq_self_iff]
  intro x hx
  have : x ≠ NUL := fun e => h (e ▸ hx)
  simpa using this

theorem c_str_length_le (s : List Char) : (c_str s).length ≤ s.length := by
  unfold c_str
  exact (List.takeWhile_sublist _).length_le

theorem last_index_of_none {chars s : List Char} (h : last_index_of chars s = none) :
    ∀ c ∈ s, c ∉ chars := by
  induction s with
  | nil => simp
  | cons a t ih =>
    simp only [last_index_of] at h
    cases ht : last_index_of chars t with
    | some i => simp [ht] at h
    | none =>
      simp only [ht] at h
      intro c hc
      rcases List.mem_cons.mp hc with rfl | hc
      · intro hmem
        simp [hmem] at h
      · exact ih ht c hc

theorem last_index_of_some {chars s : List Char} {i : Nat}
    (h : last_index_of chars s = some i) :
    ∃ pre x f, s = pre ++ x :: f ∧ pre.length = i ∧ x ∈ chars ∧ ∀ c ∈ f, c ∉ chars := by
  induction s generalizing i with
  | nil => simp [last_index_of] at h
  | cons a t ih =>
    simp only [last_index_of] at h
    cases ht : last_index_of chars t with
    | some j =>
      simp only [ht, Option.some.injEq] at h
      obtain ⟨pre, x, f, hs, hl, hx, hf⟩ := ih ht
      exact ⟨a :: pre, x, f, by simp [hs], by simp [hl, h], hx, hf⟩
    | none =>
      simp only [ht] at h
      by_cases ha : a ∈ chars
      · simp only [ha, if_true, Option.some.injEq] at h
        exact ⟨[], a, t, rfl, by simp [← h], ha, last_index_of_none ht⟩
      · simp [ha] at h

theorem final_component_of_no_separator {p : List Char}
    (h : ∀ c ∈ p, c ∉ path_separators) : final_component p = p := by
  unfold final_component
  have : p.reverse.takeWhile (fun c => !is_path_separator c) = p.reverse := by
    rw [List.takeWhile_eq_self_iff]
    intro x hx
    have hx2 := h x (List.mem_reverse.mp hx)
    rw [mem_path_separators] at hx2
    simpa using hx2
  rw [this, List.reverse_reverse]

theorem final_component_append {pre f : List Char} {x : Char}
    (hx : x ∈ path_separators) (hf : ∀ c ∈ f, c ∉ path_separators) :
    final_component (pre ++ x :: f) = f := by
  unfold final_component
  have hrev : (pre ++ x :: f).reverse = f.reverse ++ x :: pre.reverse := by simp
  have hall : ∀ a ∈ f.reverse, (fun c => !is_path_separator c) a = true := by
    intro a ha
    have := hf a (List.mem_reverse.mp ha)
    rw [mem_path_separators] at this
    simpa using this
  have hxs : is_path_separator x = true := (mem_path_separators x).mp hx
  rw [hrev, List.takeWhile_append_of_pos hall]
  simp [hxs]

/-- `get_file_name` never throws: it returns the characters from the position it
computed on. -/
theorem get_file_name_returns (path : List Char) :
    ∃ f, get_file_name path = .ok f := by
  unfold get_file_name substr find_last_of
  cases h : last_index_of path_separators path with
  | none => exact ⟨path, by simp [npos]⟩
  | some i =>
    obtain ⟨pre, x, f, hs, hl, _, _⟩ := last_index_of_some h
    have hle : (i + 1) % 2 ^ 64 ≤ path.length := by
      have h1 : (i + 1) % 2 ^ 64 ≤ i + 1 := Nat.mod_le _ _
      have h2 : i + 1 ≤ path.length := by rw [hs]; simp; omega
      omega
    simp only [h]
    rw [if_neg (by omega)]
    exact ⟨_, rfl⟩

/-- On a path whose size fits `size_t`, `get_file_name` is the final path component. -/
theorem get_file_name_eq {path : List Char} (hsz : path.length < 2 ^ 64 - 1) :
    get_file_name path = .ok (final_component path) := by
  unfold get_file_name substr find_last_of
  cases h : last_index_of path_separators path with
  | none =>
    simp [npos, final_component_of_no_separator (last_index_of_none h)]
  | some i =>
    obtain ⟨pre, x, f, hs, hl, hx, hf⟩ := last_index_of_some h
    have hlen : path.length = i + 1 + f.length := by rw [hs]; simp; omega
    have hmod : (i + 1) % 2 ^ 64 = i + 1 := Nat.mod_eq_of_lt (by omega)
    simp only [h, hmod]
    rw [if_neg (by omega)]
    have hdrop : path.drop (i + 1) = f := by
      rw [hs, ← hl]
      simp
    rw [hdrop, hs, final_component_append hx hf]

/-! ## Lemmas on comment_id -/

theorem nul_ne_dollar : NUL ≠ '$' := by decide

theorem buffer_head_ne_dollar {s : List Char} (h : s.head? ≠ some '$') :
    (buffer s).head? ≠ some '$' := by
  cases s with
  | nil => simp [buffer, nul_ne_dollar]
  | cons a t => simpa [buffer] using h

theorem buffer_head_eq_dollar {s : List Char} (h : s.head? = some '$') :
    (buffer s).head? = some '$' := by
  cases s with
  | nil => simp at h
  | cons a t => simpa [buffer] using h

theorem mk_location_of_ne_zero (p : List Char) {n : Nat} (hn : n ≠ 0) :
    ∃ f, get_file_name (c_str p) = .ok f ∧ comment_id.mk_location p n = .ok ⟨f, n⟩ := by
  obtain ⟨f, hf⟩ := get_file_name_returns (c_str p)
  exact ⟨f, hf, by simp [comment_id.mk_location, hf, hn]⟩

theorem mk_inline_location_of_ne_zero (p e : List Char) {n : Nat} (hn : n ≠ 0) :
    ∃ f, get_file_name (c_str p) = .ok f ∧
      comment_id.mk_inline_location p n e = .ok ⟨'$' :: (f ++ '$' :: c_str e), n⟩ := by
  obtain ⟨f, hf⟩ := get_file_name_returns (c_str p)
  exact ⟨f, hf, by simp [comment_id.mk_inline_location, hf, hn]⟩

theorem get_file_name_c_str {p : List Char} (hp : well_formed p) :
    get_file_name (c_str p) = .ok (final_component p) := by
  rw [c_str_of_no_nul hp.1, get_file_name_eq hp.2]

theorem mk_location_well_formed {p : List Char} {n : Nat} (hp : well_formed p)
    (hn : n ≠ 0) : comment_id.mk_location p n = .ok ⟨final_component p, n⟩ := by
  simp [comment_id.mk_location, get_file_name_c_str hp, hn]

theorem mk_inline_location_well_formed {p : List Char} {n : Nat} (e : List Char)
    (hp : well_formed p) (hn : n ≠ 0) :
    comment_id.mk_inline_location p n e
      = .ok ⟨'$' :: (final_component p ++ '$' :: c_str e), n⟩ := by
  simp [comment_id.mk_inline_location, get_file_name_c_str hp, hn]

theorem is_location_of_head {s : List Char} {n : Nat} (hn : n ≠ 0)
    (h : s.head? ≠ some '$') : (comment_id.mk s n).is_location = true := by
  have := buffer_head_ne_dollar h
  simp [comment_id.is_location, comment_id.is_name, hn, this]

theorem is_location_of_dollar {s : List Char} {n : Nat}
    (h : s.head? = some '$') : (comment_id.mk s n).is_location = false := by
  have := buffer_head_eq_dollar h
  simp [comment_id.is_location, this]

theorem is_inline_location_of_dollar {s : List Char} {n : Nat} (hn : n ≠ 0)
    (h : s.head? = some '$') : (comment_id.mk s n).is_inline_location = true := by
  simp [comment_id.is_inline_location, is_location_of_dollar h, comment_id.is_name, hn]

/-- The three form predicates of an identifier: exactly one holds. -/
theorem form_cases (id : comment_id) :
    (id.is_name = true ∧ id.is_location = false ∧ id.is_inline_location = false) ∨
    (id.is_name = false ∧ id.is_location = true ∧ id.is_inline_location = false) ∨
    (id.is_name = false ∧ id.is_location = false ∧ id.is_inline_location = true) := by
  unfold comment_id.is_inline_location
  cases hn : id.is_name
  · cases hl : id.is_location <;> simp
  · have : id.is_location = false := by simp [comment_id.is_location, hn]
    simp [this]

/-- The loop of `file_name()` stops inside the buffer when a `'$'` is ahead. -/
theorem file_name_loop_returns {x : List Char} (y : List Char) (h : '$' ∈ x) :
    ∃ r, comment_id.file_name_loop (x ++ y) = .ok r := by
  induction x with
  | nil => simp at h
  | cons a t ih =>
    by_cases ha : a = '$'
    · exact ⟨[], by simp [comment_id.file_name_loop, ha]⟩
    · have ht : '$' ∈ t := by
        rcases List.mem_cons.mp h with e | e
        · exact absurd e.symm ha
        · exact e
      obtain ⟨r, hr⟩ := ih ht
      exact ⟨a :: r, by simp [comment_id.file_name_loop, ha, hr]⟩

/-- The loop of `file_name()` holds no assertion. -/
theorem file_name_loop_ne_assertion (l : List Char) :
    comment_id.file_name_loop l ≠ .assertion_failed := by
  induction l with
  | nil => simp [comment_id.file_name_loop]
  | cons a t ih =>
    unfold comment_id.file_name_loop
    by_cases ha : a = '$'
    · simp [ha]
    · simp only [ha, if_false]
      cases h : comment_id.file_name_loop t with
      | ok r => simp
      | assertion_failed => exact absurd h ih
      | out_of_bounds => simp
      | out_of_range => simp

/-- With no `'$'` ahead the loop of `file_name()` runs past the terminator. -/
theorem file_name_loop_overrun {x : List Char} (h : '$' ∉ x) :
    comment_id.file_name_loop (buffer x) = .out_of_bounds := by
  induction x with
  | nil => simp [buffer, comment_id.file_name_loop, nul_ne_dollar]
  | cons a t ih =>
    have ha : a ≠ '$' := fun e => h (by simp [e])
    have ht : '$' ∉ t := fun e => h (List.mem_cons_of_mem _ e)
    have := ih ht
    simp only [buffer] at this
    simp [buffer, comment_id.file_name_loop, ha, this]

/-- The loop of `inline_entity_name()` stops at a `'$'` that is ahead; what follows the
stop is a suffix of what follows the scanned part. -/
theorem inline_entity_name_loop_returns {x : List Char} (y : List Char) (h : '$' ∈ x) :
    ∃ pre post, x = pre ++ '$' :: post ∧
      comment_id.inline_entity_name_loop (x ++ y) = .ok ('$' :: (post ++ y)) := by
  induction x with
  | nil => simp at h
  | cons a t ih =>
    by_cases ha : a = '$'
    · exact ⟨[], t, by simp [ha], by simp [comment_id.inline_entity_name_loop, ha]⟩
    · have ht : '$' ∈ t := by
        rcases List.mem_cons.mp h with e | e
        · exact absurd e.symm ha
        · exact e
      obtain ⟨pre, post, hx, hr⟩ := ih ht
      exact ⟨a :: pre, post, by simp [hx],
        by simp [comment_id.inline_entity_name_loop, ha, hr]⟩

/-- Reading a string from a buffer that ends in the terminator returns. -/
theorem read_c_string_returns (x : List Char) :
    ∃ r, read_c_string (x ++ [NUL]) = .ok r := by
  induction x with
  | nil => exact ⟨[], by simp [read_c_string]⟩
  | cons a t ih =>
    by_cases ha : a = NUL
    · exact ⟨[], by simp [read_c_string, ha]⟩
    · obtain ⟨r, hr⟩ := ih
      exact ⟨a :: r, by simp [read_c_string, ha, hr]⟩

/-! ## Claims on comment_id -/

/-- The round trip of a location where the leading-`'$'` defect does not strike: for
every path string `p` (a C++ string value, `well_formed`) whose final path component
does not begin with `'$'` and every line `n > 0`, the Location constructor returns an
identifier whose `line()` returns `n` and whose `file_name()` returns the final path
component of `p`. -/
theorem location_round_trip (p : List Char) (n : Nat) (hp : well_formed p) (hn : 0 < n)
    (hd : (final_component p).head? ≠ some '$') :
    ∃ id, comment_id.mk_location p n = .ok id ∧ id.line = .ok n ∧
      id.file_name = .ok (final_component p) := by
  have hn0 : n ≠ 0 := by omega
  refine ⟨⟨final_component p, n⟩, mk_location_well_formed hp hn0, ?_, ?_⟩
  · simp [comment_id.line, is_location_of_head hn0 hd]
  · simp [comment_id.file_name, is_location_of_head hn0 hd, comment_id.is_name, hn0]

/-- The round trip at the path "/a/b/foo.h" and line 42. -/
theorem location_round_trip_witness :
    ∃ id, comment_id.mk_location "/a/b/foo.h".toList 42 = .ok id ∧ id.line = .ok 42 ∧
      id.file_name = .ok (final_component "/a/b/foo.h".toList) :=
  location_round_trip "/a/b/foo.h".toList 42 (by decide) (by decide) (by decide)

/-- C1 (code defect): the path "$foo.h" is its own final component and line 3 is
above 0, so `comment_id("$foo.h", 3).file_name()` is to return "$foo.h". The Location
constructor stores "$foo.h" as it is, the identifier then answers `is_location()` false,
and the loop of `file_name()` runs past the terminator of the stored string without
returning a value; `line()` still returns 3. -/
theorem location_file_name_overrun :
    well_formed "$foo.h".toList ∧
    final_component "$foo.h".toList = "$foo.h".toList ∧
    comment_id.mk_location "$foo.h".toList 3 = .ok ⟨"$foo.h".toList, 3⟩ ∧
    (comment_id.mk "$foo.h".toList 3).is_location = false ∧
    (comment_id.mk "$foo.h".toList 3).file_name = .out_of_bounds ∧
    (comment_id.mk "$foo.h".toList 3).file_name ≠ .ok (final_component "$foo.h".toList) ∧
    (comment_id.mk "$foo.h".toList 3).line = .ok 3 := by
  decide

/-- The forms of the constructed identifiers where the leading-`'$'` defect does not
strike: `comment_id(name)` has `is_name()` true and the other two predicates false; for
every path (a C++ string value, `well_formed`) whose final component does not begin with
`'$'` and every line `n > 0`, `comment_id(path, n)` has `is_location()` true and the
other two false; for every path, line `n > 0` and entity name,
`comment_id(path, n, entity)` has `is_inline_location()` true and the other two
false. -/
theorem constructors_partition_forms :
    (∀ name : List Char,
      (comment_id.mk_name name).is_name = true ∧
      (comment_id.mk_name name).is_location = false ∧
      (comment_id.mk_name name).is_inline_location = false) ∧
    (∀ (p : List Char) (n : Nat), well_formed p → 0 < n →
      (final_component p).head? ≠ some '$' →
      ∃ id, comment_id.mk_location p n = .ok id ∧
        id.is_location = true ∧ id.is_name = false ∧ id.is_inline_location = false) ∧
    (∀ (p : List Char) (n : Nat) (e : List Char), 0 < n →
      ∃ id, comment_id.mk_inline_location p n e = .ok id ∧
        id.is_inline_location = true ∧ id.is_name = false ∧ id.is_location = false) := by
  refine ⟨?_, ?_, ?_⟩
  · intro name
    simp [comment_id.mk_name, comment_id.is_name, comment_id.is_location,
      comment_id.is_inline_location]
  · intro p n hp hn hd
    have hn0 : n ≠ 0 := by omega
    refine ⟨⟨final_component p, n⟩, mk_location_well_formed hp hn0, ?_, ?_, ?_⟩
    · exact is_location_of_head hn0 hd
    · simp [comment_id.is_name, hn0]
    · simp [comment_id.is_inline_location, is_location_of_head hn0 hd]
  · intro p n e hn
    have hn0 : n ≠ 0 := by omega
    obtain ⟨f, _, hmk⟩ := mk_inline_location_of_ne_zero p e hn0
    refine ⟨_, hmk, ?_, ?_, ?_⟩
    · exact is_inline_location_of_dollar hn0 (by simp)
    · simp [comment_id.is_name, hn0]
    · exact is_location_of_dollar (by simp)

/-- The forms at the name "widget::size", the path "src/report.h" at line 42 and the
inline identifier of "RED" in "macros.h" at line 10. -/
theorem constructors_partition_forms_witness :
    ((comment_id.mk_name "widget::size".toList).is_name = true ∧
      (comment_id.mk_name "widget::size".toList).is_location = false ∧
      (comment_id.mk_name "widget::size".toList).is_inline_location = false) ∧
    (∃ id, comment_id.mk_location "src/report.h".toList 42 = .ok id ∧
        id.is_location = true ∧ id.is_name = false ∧ id.is_inline_location = false) ∧
    (∃ id, comment_id.mk_inline_location "macros.h".toList 10 "RED".toList = .ok id ∧
        id.is_inline_location = true ∧ id.is_name = false ∧ id.is_location = false) :=
  ⟨constructors_partition_forms.1 "widget::size".toList,
   constructors_partition_forms.2.1 "src/report.h".toList 42 (by decide) (by decide)
     (by decide),
   constructors_partition_forms.2.2 "macros.h".toList 10 "RED".toList (by decide)⟩

/-- C2 (code defect): `comment_id("inc/$gen.h", 7)` is built by the Location
constructor with a line above 0, so it is to have `is_location()` true and the other two
predicates false. The constructor stores the base name "$gen.h" as it is, and
`is_location()`, which only looks at the first stored character, answers false while
`is_inline_location()` answers true. The Name constructor does not have the defect: it is
told apart by the line alone. -/
theorem location_form_lost :
    well_formed "inc/$gen.h".toList ∧
    comment_id.mk_location "inc/$gen.h".toList 7 = .ok ⟨"$gen.h".toList, 7⟩ ∧
    (comment_id.mk "$gen.h".toList 7).is_name = false ∧
    (comment_id.mk "$gen.h".toList 7).is_location = false ∧
    (comment_id.mk "$gen.h".toList 7).is_inline_location = true ∧
    (comment_id.mk_name "$gen.h".toList).is_name = true ∧
    (comment_id.mk_name "$gen.h".toList).is_inline_location = false := by
  decide

/-- C6: for every two path strings (C++ string values, `well_formed`) with the same
final path component and every line `n > 0`, the Location constructor returns the same
identifier for both, and so does the Inline-location constructor for every entity
name. -/
theorem directory_independence (p q : List Char) (n : Nat) (hp : well_formed p)
    (hq : well_formed q) (hn : 0 < n) (h : final_component p = final_component q) :
    (∃ id, comment_id.mk_location p n = .ok id ∧ comment_id.mk_location q n = .ok id) ∧
    (∀ e : List Char, ∃ id, comment_id.mk_inline_location p n e = .ok id ∧
      comment_id.mk_inline_location q n e = .ok id) := by
  have hn0 : n ≠ 0 := by omega
  refine ⟨⟨_, mk_location_well_formed hp hn0, ?_⟩, fun e => ⟨_,
    mk_inline_location_well_formed e hp hn0, ?_⟩⟩
  · rw [h]
    exact mk_location_well_formed hq hn0
  · rw [h]
    exact mk_inline_location_well_formed e hq hn0

/-- Witness of C6: the paths "/a/b/foo.h" and "foo.h" at line 5. -/
theorem directory_independence_witness :
    (∃ id, comment_id.mk_location "/a/b/foo.h".toList 5 = .ok id ∧
      comment_id.mk_location "foo.h".toList 5 = .ok id) ∧
    (∀ e : List Char, ∃ id, comment_id.mk_inline_location "/a/b/foo.h".toList 5 e = .ok id ∧
      comment_id.mk_inline_location "foo.h".toList 5 e = .ok id) :=
  directory_independence "/a/b/foo.h".toList "foo.h".toList 5 (by decide) (by decide)
    (by decide) (by decide)

/-- C7: for every `comment_id` value exactly one of `is_name()`, `is_location()` and
`is_inline_location()` is true. -/
theorem forms_exclusive_exhaustive (id : comment_id) :
    (id.is_name = true ∧ id.is_location = false ∧ id.is_inline_location = false) ∨
    (id.is_name = false ∧ id.is_location = true ∧ id.is_inline_location = false) ∨
    (id.is_name = false ∧ id.is_location = false ∧ id.is_inline_location = true) := by
  unfold comment_id.is_inline_location comment_id.is_location
  cases id.is_name <;> cases ((buffer id.file_name_or_name_).head? != some '$') <;> simp

/-- C8: the Location and the Inline-location constructor fail their assertion exactly
when `line == 0`, and otherwise return an identifier holding that line; so on every
identifier the line is 0 exactly when `is_name()` holds. -/
theorem line_precondition (file entity : List Char) (line : Nat) :
    (comment_id.mk_location file line = .assertion_failed ↔ line = 0) ∧
    (comment_id.mk_inline_location file line entity = .assertion_failed ↔ line = 0) ∧
    (line ≠ 0 → ∃ id, comment_id.mk_location file line = .ok id ∧ id.line_ = line) ∧
    (line ≠ 0 → ∃ id, comment_id.mk_inline_location file line entity = .ok id ∧
      id.line_ = line) ∧
    (∀ id : comment_id, id.line_ = 0 ↔ id.is_name = true) := by
  obtain ⟨f, hf⟩ := get_file_name_returns (c_str file)
  refine ⟨?_, ?_, ?_, ?_, ?_⟩
  · by_cases h : line = 0 <;> simp [comment_id.mk_location, hf, h]
  · by_cases h : line = 0 <;> simp [comment_id.mk_inline_location, hf, h]
  · intro h
    exact ⟨⟨f, line⟩, by simp [comment_id.mk_location, hf, h], rfl⟩
  · intro h
    exact ⟨⟨'$' :: (f ++ '$' :: c_str entity), line⟩,
      by simp [comment_id.mk_inline_location, hf, h], rfl⟩
  · intro id
    simp [comment_id.is_name]

/-- Witness of C8: "foo.h", line 10 and entity "RED". -/
theorem line_precondition_witness :
    (∃ id, comment_id.mk_location "foo.h".toList 10 = .ok id ∧ id.line_ = 10) ∧
    (∃ id, comment_id.mk_inline_location "foo.h".toList 10 "RED".toList = .ok id ∧
      id.line_ = 10) :=
  ⟨(line_precondition "foo.h".toList "RED".toList 10).2.2.1 (by decide),
   (line_precondition "foo.h".toList "RED".toList 10).2.2.2.1 (by decide)⟩

/-- The contract of `file_name()` and `line()` where the leading-`'$'` defect does not
strike: they fail their assertion on every
`comment_id(name)`, and on no identifier that is not in Name form; `line()` returns the
line on every identifier built by the Location or Inline-location constructor with a
non-zero line; `file_name()` returns a value on every identifier built by the
Inline-location constructor, and by the Location constructor from a path (a C++ string
value, `well_formed`) whose final component is not a `'$'` followed only by characters
other than `'$'`. -/
theorem file_name_line_contract :
    (∀ name : List Char,
      (comment_id.mk_name name).file_name = .assertion_failed ∧
      (comment_id.mk_name name).line = .assertion_failed) ∧
    (∀ id : comment_id,
      (id.file_name = .assertion_failed ↔ id.is_name = true) ∧
      (id.line = .assertion_failed ↔ id.is_name = true)) ∧
    (∀ (p : List Char) (n : Nat), n ≠ 0 →
      ∃ id, comment_id.mk_location p n = .ok id ∧ id.line = .ok n) ∧
    (∀ (p : List Char) (n : Nat), well_formed p → n ≠ 0 →
      ¬ ((final_component p).head? = some '$' ∧ '$' ∉ (final_component p).tail) →
      ∃ id, comment_id.mk_location p n = .ok id ∧ id.file_name.returns = true) ∧
    (∀ (p : List Char) (n : Nat) (e : List Char), n ≠ 0 →
      ∃ id, comment_id.mk_inline_location p n e = .ok id ∧
        id.file_name.returns = true ∧ id.line = .ok n) := by
  refine ⟨?_, ?_, ?_, ?_, ?_⟩
  · intro name
    simp [comment_id.mk_name, comment_id.file_name, comment_id.line, comment_id.is_name,
      comment_id.is_location, comment_id.is_inline_location]
  · intro id
    have hexcl := form_cases id
    constructor
    · unfold comment_id.file_name
      rcases hexcl with h | h | h
      · simp [h.1]
      · simp [h.1, h.2.1]
      · simp only [h.1, h.2.1, h.2.2, Bool.false_eq_true, if_false, Bool.not_true,
          iff_false]
        exact file_name_loop_ne_assertion _
    · unfold comment_id.line
      rcases hexcl with h | h | h
      · simp [h.1, h.2.1, h.2.2]
      · simp [h.1, h.2.1]
      · simp [h.1, h.2.2]
  · intro p n hn
    obtain ⟨f, _, hmk⟩ := mk_location_of_ne_zero p hn
    refine ⟨_, hmk, ?_⟩
    have := form_cases ⟨f, n⟩
    have hname : (comment_id.mk f n).is_name = false := by simp [comment_id.is_name, hn]
    rcases this with h | h | h
    · simp [hname] at h
    · simp [comment_id.line, h.2.1]
    · simp [comment_id.line, h.2.2]
  · intro p n hp hn hd
    refine ⟨_, mk_location_well_formed hp hn, ?_⟩
    by_cases hh : (final_component p).head? = some '$'
    · have hmem : '$' ∈ (final_component p).tail := by
        by_contra hc
        exact hd ⟨hh, hc⟩
      cases hfc : final_component p with
      | nil => rw [hfc] at hh; simp at hh
      | cons a t =>
        rw [hfc] at hh hmem
        simp only [List.tail_cons] at hmem
        obtain ⟨r, hr⟩ := file_name_loop_returns [NUL] hmem
        have hinl := @is_inline_location_of_dollar (a :: t) n hn hh
        have hloc := @is_location_of_dollar (a :: t) n hh
        simp [comment_id.file_name, hinl, hloc, comment_id.is_name, hn, buffer, hr,
          Result.returns]
    · simp [comment_id.file_name, is_location_of_head hn hh, comment_id.is_name, hn,
        Result.returns]
  · intro p n e hn
    obtain ⟨f, _, hmk⟩ := mk_inline_location_of_ne_zero p e hn
    refine ⟨_, hmk, ?_, ?_⟩
    · have hh : ('$' :: (f ++ '$' :: c_str e)).head? = some '$' := by simp
      have hinl := @is_inline_location_of_dollar _ n hn hh
      have hloc := @is_location_of_dollar _ n hh
      obtain ⟨r, hr⟩ := file_name_loop_returns (x := f ++ '$' :: c_str e) [NUL] (by simp)
      rw [List.append_assoc, List.cons_append] at hr
      simp [comment_id.file_name, hinl, hloc, comment_id.is_name, hn, buffer, hr,
        Result.returns]
    · have hh : ('$' :: (f ++ '$' :: c_str e)).head? = some '$' := by simp
      simp [comment_id.line, is_inline_location_of_dollar hn hh]

/-- The contract at "src/report.h", line 42, and at "macros.h", line 10, with "RED". -/
theorem file_name_line_contract_witness :
    (∃ id, comment_id.mk_location "src/report.h".toList 42 = .ok id ∧ id.line = .ok 42) ∧
    (∃ id, comment_id.mk_location "src/report.h".toList 42 = .ok id ∧
      id.file_name.returns = true) ∧
    (∃ id, comment_id.mk_inline_location "macros.h".toList 10 "RED".toList = .ok id ∧
        id.file_name.returns = true ∧ id.line = .ok 10) :=
  ⟨file_name_line_contract.2.2.1 "src/report.h".toList 42 (by decide),
   file_name_line_contract.2.2.2.1 "src/report.h".toList 42 (by decide) (by decide)
     (by decide),
   file_name_line_contract.2.2.2.2 "macros.h".toList 10 "RED".toList (by decide)⟩

/-- C9 (code defect): `comment_id("gen/$tmp.hpp", 1)` is built by the Location
constructor with a non-zero line, so `file_name()` is to return a value on it. The
stored base name "$tmp.hpp" makes the identifier pass `assert(is_inline_location())`,
and the loop of `file_name()`, which tests for `'$'` only, finds no second `'$'` and
reads past the terminator: no value is returned, and no assertion fails either.
`line()` returns 1. -/
theorem file_name_returns_nothing :
    well_formed "gen/$tmp.hpp".toList ∧
    comment_id.mk_location "gen/$tmp.hpp".toList 1 = .ok ⟨"$tmp.hpp".toList, 1⟩ ∧
    (comment_id.mk "$tmp.hpp".toList 1).is_name = false ∧
    (comment_id.mk "$tmp.hpp".toList 1).file_name = .out_of_bounds ∧
    (comment_id.mk "$tmp.hpp".toList 1).file_name.returns = false ∧
    (comment_id.mk "$tmp.hpp".toList 1).line = .ok 1 := by
  decide

/-- The form-specific accessors where the leading-`'$'` defect does not strike:
`inline_entity_name()` returns a value on every identifier built
by the Inline-location constructor and only on identifiers in Inline-location form, and
fails its assertion on every `comment_id(name)` and on every identifier built by the
Location constructor from a path (a C++ string value, `well_formed`) whose final
component does not begin with `'$'`;
`unique_name()` returns a value only on Name-form identifiers, returns `name` on
`comment_id(name)`, and fails its assertion on every identifier built with a non-zero
line. -/
theorem form_specific_accessors :
    (∀ (p : List Char) (n : Nat) (e : List Char), n ≠ 0 →
      ∃ id, comment_id.mk_inline_location p n e = .ok id ∧
        id.inline_entity_name.returns = true) ∧
    (∀ id : comment_id, id.inline_entity_name.returns = true →
      id.is_inline_location = true) ∧
    (∀ name : List Char, (comment_id.mk_name name).inline_entity_name = .assertion_failed) ∧
    (∀ (p : List Char) (n : Nat), well_formed p → n ≠ 0 →
      (final_component p).head? ≠ some '$' →
      ∃ id, comment_id.mk_location p n = .ok id ∧
        id.inline_entity_name = .assertion_failed) ∧
    (∀ name : List Char, (comment_id.mk_name name).unique_name = .ok name) ∧
    (∀ id : comment_id, id.unique_name.returns = true ↔ id.is_name = true) ∧
    (∀ (p : List Char) (n : Nat), n ≠ 0 →
      ∃ id, comment_id.mk_location p n = .ok id ∧ id.unique_name = .assertion_failed) ∧
    (∀ (p : List Char) (n : Nat) (e : List Char), n ≠ 0 →
      ∃ id, comment_id.mk_inline_location p n e = .ok id ∧
        id.unique_name = .assertion_failed) := by
  refine ⟨?_, ?_, ?_, ?_, ?_, ?_, ?_, ?_⟩
  · intro p n e hn
    obtain ⟨f, _, hmk⟩ := mk_inline_location_of_ne_zero p e hn
    refine ⟨_, hmk, ?_⟩
    have hh : ('$' :: (f ++ '$' :: c_str e)).head? = some '$' := by simp
    have hinl := @is_inline_location_of_dollar _ n hn hh
    obtain ⟨pre, post, _, hr⟩ :=
      inline_entity_name_loop_returns (x := f ++ '$' :: c_str e) [NUL] (by simp)
    rw [List.append_assoc, List.cons_append] at hr
    obtain ⟨r, hrd⟩ := read_c_string_returns post
    simp [comment_id.inline_entity_name, hinl, buffer, hr, hrd, Result.returns]
  · intro id h
    by_contra hc
    simp [comment_id.inline_entity_name, hc, Result.returns] at h
  · intro name
    simp [comment_id.mk_name, comment_id.inline_entity_name,
      comment_id.is_inline_location, comment_id.is_name]
  · intro p n hp hn hd
    refine ⟨_, mk_location_well_formed hp hn, ?_⟩
    simp [comment_id.inline_entity_name, comment_id.is_inline_location,
      is_location_of_head hn hd]
  · intro name
    simp [comment_id.mk_name, comment_id.unique_name, comment_id.is_name]
  · intro id
    unfold comment_id.unique_name
    cases id.is_name <;> simp [Result.returns]
  · intro p n hn
    obtain ⟨f, _, hmk⟩ := mk_location_of_ne_zero p hn
    exact ⟨_, hmk, by simp [comment_id.unique_name, comment_id.is_name, hn]⟩
  · intro p n e hn
    obtain ⟨f, _, hmk⟩ := mk_inline_location_of_ne_zero p e hn
    exact ⟨_, hmk, by simp [comment_id.unique_name, comment_id.is_name, hn]⟩

/-- The accessors at "macros.h", line 10, with "RED", and at "src/report.h", line 42. -/
theorem form_specific_accessors_witness :
    (∃ id, comment_id.mk_inline_location "macros.h".toList 10 "RED".toList = .ok id ∧
        id.inline_entity_name.returns = true) ∧
    (∃ id, comment_id.mk_location "src/report.h".toList 42 = .ok id ∧
        id.inline_entity_name = .assertion_failed) ∧
    (∃ id, comment_id.mk_location "src/report.h".toList 42 = .ok id ∧
        id.unique_name = .assertion_failed) :=
  ⟨form_specific_accessors.1 "macros.h".toList 10 "RED".toList (by decide),
   form_specific_accessors.2.2.2.1 "src/report.h".toList 42 (by decide) (by decide)
     (by decide),
   form_specific_accessors.2.2.2.2.2.2.1 "src/report.h".toList 42 (by decide)⟩

/-- C10 (code defect): `comment_id("$a$b", 3)` is built by the Location constructor, so
`inline_entity_name()` is to fail its assertion on it. The constructor stores "$a$b" as
it is, which is also what the Inline-location constructor stores for the file "a" and
the entity "b": the two identifiers are the same value, `is_inline_location()` holds,
and `inline_entity_name()` returns "b". -/
theorem location_read_as_inline :
    well_formed "$a$b".toList ∧
    comment_id.mk_location "$a$b".toList 3 = .ok ⟨"$a$b".toList, 3⟩ ∧
    comment_id.mk_inline_location "a".toList 3 "b".toList = .ok ⟨"$a$b".toList, 3⟩ ∧
    (comment_id.mk "$a$b".toList 3).is_inline_location = true ∧
    (comment_id.mk "$a$b".toList 3).inline_entity_name = .ok "b".toList ∧
    (comment_id.mk "$a$b".toList 3).inline_entity_name ≠ .assertion_failed := by
  decide

/-! ## Lemmas on the comparator and the registry -/

theorem string_lt_irrefl (a : List Char) : string_lt a a = false := by
  induction a with
  | nil => rfl
  | cons c t ih => simp [string_lt, ih]

theorem string_lt_connected (a b : List Char) (hab : string_lt a b = false)
    (hba : string_lt b a = false) : a = b := by
  induction a generalizing b with
  | nil =>
    cases b with
    | nil => rfl
    | cons d y => simp [string_lt] at hab
  | cons c x ih =>
    cases b with
    | nil => simp [string_lt] at hba
    | cons d y =>
      simp only [string_lt] at hab hba
      by_cases h1 : c < d
      · simp [h1] at hab
      · by_cases h2 : d < c
        · simp [h2] at hba
        · simp only [h1, h2, if_false] at hab hba
          have hcd : c = d := le_antisymm (not_lt.mp h2) (not_lt.mp h1)
          rw [hcd, ih y hab hba]

theorem entity_lt_irrefl (a : Option (List Char)) : entity_lt a a = false := by
  cases a with
  | none => rfl
  | some x => simp [entity_lt, string_lt_irrefl]

theorem entity_lt_connected (a b : Option (List Char)) (hab : entity_lt a b = false)
    (hba : entity_lt b a = false) : a = b := by
  cases a with
  | none =>
    cases b with
    | none => rfl
    | some y => simp [entity_lt] at hab
  | some x =>
    cases b with
    | none => simp [entity_lt] at hba
    | some y =>
      simp only [entity_lt] at hab hba
      rw [string_lt_connected x y hab hba]

theorem id_key_lt_irrefl (k : id_key) : id_key.lt k k = false := by
  cases k with
  | name a => simp [id_key.lt, string_lt_irrefl]
  | location f l e => simp [id_key.lt, string_lt_irrefl, entity_lt_irrefl]

theorem id_key_lt_connected (j k : id_key) (hjk : id_key.lt j k = false)
    (hkj : id_key.lt k j = false) : j = k := by
  cases j with
  | name a =>
    cases k with
    | name b =>
      simp only [id_key.lt] at hjk hkj
      rw [string_lt_connected a b hjk hkj]
    | location f l e => simp [id_key.lt] at hjk
  | location f l e =>
    cases k with
    | name b => simp [id_key.lt] at hkj
    | location g m d =>
      simp only [id_key.lt, Bool.or_eq_false_iff, Bool.and_eq_false_imp, beq_iff_eq,
        decide_eq_false_iff_not] at hjk hkj
      have hfg : f = g := string_lt_connected f g hjk.1 hkj.1
      subst hfg
      have h1 := hjk.2 rfl
      have h2 := hkj.2 rfl
      have hlm : l = m := by omega
      subst hlm
      rw [entity_lt_connected e d (h1.2 rfl) (h2.2 rfl)]

/-- Two identifiers are equivalent keys exactly when they are compared by the same
parts. -/
theorem equivalent_iff (a b : comment_id) :
    detail.equivalent a b = true ↔ a.key = b.key := by
  unfold detail.equivalent detail.comment_compare
  constructor
  · intro h
    simp only [Bool.and_eq_true, Bool.not_eq_true'] at h
    exact id_key_lt_connected _ _ h.1 h.2
  · intro h
    rw [h]
    simp [id_key_lt_irrefl]

theorem find_eq_none_iff (reg : comment_registry) (id : comment_id) :
    reg.find id = none ↔ ∀ entry ∈ reg.comments_, entry.1.key ≠ id.key := by
  unfold comment_registry.find
  cases h : reg.comments_.find? (fun entry => detail.equivalent entry.1 id) with
  | none =>
    simp only [true_iff]
    intro entry hmem
    have := (List.find?_eq_none.mp h) entry hmem
    rw [equivalent_iff] at this
    exact this
  | some entry =>
    simp only [false_iff, reduceCtorEq]
    intro hall
    have hmem := List.mem_of_find?_eq_some h
    have hp := List.find?_some h
    rw [equivalent_iff] at hp
    exact hall entry hmem hp

theorem find_congr (reg : comment_registry) {a b : comment_id} (h : a.key = b.key) :
    reg.find a = reg.find b := by
  unfold comment_registry.find
  have : (fun entry : comment_id × comment => detail.equivalent entry.1 a)
      = (fun entry => detail.equivalent entry.1 b) := by
    funext entry
    rw [Bool.eq_iff_iff, equivalent_iff, equivalent_iff, h]
  rw [this]

theorem find_append (l m : List (comment_id × comment)) (id : comment_id) :
    (comment_registry.mk (l ++ m)).find id
      = ((comment_registry.mk l).find id).or ((comment_registry.mk m).find id) := by
  unfold comment_registry.find
  simp only [List.find?_append]
  cases l.find? (fun entry => detail.equivalent entry.1 id) <;> simp

theorem find_singleton {a b : comment_id} (c : comment) (h : a.key = b.key) :
    (comment_registry.mk [(a, c)]).find b = some c := by
  have : detail.equivalent a b = true := (equivalent_iff a b).mpr h
  simp [comment_registry.find, this]

theorem register_comment_fst (reg : comment_registry) (id : comment_id) (c : comment) :
    (reg.register_comment id c).1 = true ↔ reg.find id = none := by
  unfold comment_registry.register_comment
  cases reg.find id <;> simp

/-- After a registration that succeeded, every identifier compared by the same parts
finds the registered comment. -/
theorem find_after_register {reg : comment_registry} {id probe : comment_id} (c : comment)
    (hreg : (reg.register_comment id c).1 = true) (hkey : id.key = probe.key) :
    (reg.register_comment id c).2.find probe = some c := by
  have hnone : reg.find id = none := (register_comment_fst reg id c).mp hreg
  have hnone2 : reg.find probe = none := by rw [← find_congr reg hkey]; exact hnone
  have hreg_eq : comment_registry.mk reg.comments_ = reg := rfl
  simp only [comment_registry.register_comment, hnone]
  rw [find_append, hreg_eq, hnone2]
  simp [find_singleton c hkey]

/-- A registration changes no answer of `find` that was a comment. -/
theorem find_register_of_some {reg : comment_registry} {probe : comment_id} {c : comment}
    (id : comment_id) (d : comment) (h : reg.find probe = some c) :
    (reg.register_comment id d).2.find probe = some c := by
  unfold comment_registry.register_comment
  cases reg.find id with
  | some _ => simpa using h
  | none =>
    have hreg_eq : comment_registry.mk reg.comments_ = reg := rfl
    simp only
    rw [find_append, hreg_eq, h]
    rfl

theorem find_register_all_of_some {reg : comment_registry} {probe : comment_id}
    {c : comment} (more : List (comment_id × comment)) (h : reg.find probe = some c) :
    (reg.register_all more).find probe = some c := by
  induction more generalizing reg with
  | nil => simpa [comment_registry.register_all] using h
  | cons entry rest ih =>
    obtain ⟨id, d⟩ := entry
    simp only [comment_registry.register_all]
    exact ih (find_register_of_some id d h)

/-! ## Claims on the registry -/

/-- C4: for every entity whose canonical unique name maps to a registered Name-form
identifier, `lookup_comment` returns the comment registered under the name; and when
the declared location of the entity maps to a registered Location-form identifier
holding another comment, that comment is not what `lookup_comment` returns. -/
theorem name_form_precedence (reg : comment_registry) (registry : cpp_entity_registry)
    (e : cpp_entity) (u : List Char) (c_name : comment)
    (hu : registry.unique_name e = some u)
    (hname : reg.find (comment_id.mk_name u) = some c_name) :
    reg.lookup_comment registry e = .ok (some c_name) ∧
    (∀ (file : List Char) (line : Nat) (loc : comment_id) (c_loc : comment),
      registry.location e = some (file, line) →
      comment_id.mk_location file line = .ok loc →
      reg.find loc = some c_loc → c_loc ≠ c_name →
      reg.lookup_comment registry e ≠ .ok (some c_loc)) := by
  have hres : reg.lookup_comment registry e = .ok (some c_name) := by
    simp [comment_registry.lookup_comment, hu, hname]
  refine ⟨hres, fun file line loc c_loc _ _ _ hne => ?_⟩
  rw [hres]
  intro h
  simp only [Result.ok.injEq, Option.some.injEq] at h
  exact hne h.symm

/-- Witness of C4: "widget::size" registered with one comment and ("report.h", 42) with
another; the entity resolves to both. -/
theorem name_form_precedence_witness :
    ((comment_registry.empty.register_all
        [(comment_id.mk_name "widget::size".toList, sample_excluded),
         (⟨"report.h".toList, 42⟩, sample_plain)]).lookup_comment
        sample_named_located sample_entity = .ok (some sample_excluded)) ∧
    ((comment_registry.empty.register_all
        [(comment_id.mk_name "widget::size".toList, sample_excluded),
         (⟨"report.h".toList, 42⟩, sample_plain)]).lookup_comment
        sample_named_located sample_entity ≠ .ok (some sample_plain)) :=
  ⟨(name_form_precedence _ sample_named_located sample_entity "widget::size".toList
      sample_excluded (by decide) (by decide)).1,
   (name_form_precedence _ sample_named_located sample_entity "widget::size".toList
      sample_excluded (by decide) (by decide)).2 "src/report.h".toList 42
      ⟨"report.h".toList, 42⟩ sample_plain (by decide) (by decide) (by decide)
      (by decide)⟩

/-- C5: when `register_comment(I1, c1)` returned true, a later
`register_comment(I2, c2)` under an identifier that compares equal to `I1` returns
false, leaves the registry as it was, and the registry still maps both identifiers to
`c1`; `register_comment` returns true exactly when no comment held the identifier
before; and an identifier with the same stored name, or the same stored file name and
line, compares equal. -/
theorem duplicate_registration_rejected (reg : comment_registry) (id1 id2 : comment_id)
    (c1 c2 : comment) (more : List (comment_id × comment))
    (heq : detail.equivalent id1 id2 = true)
    (hreg : (reg.register_comment id1 c1).1 = true) :
    (((reg.register_comment id1 c1).2.register_all more).register_comment id2 c2).1 = false ∧
    (((reg.register_comment id1 c1).2.register_all more).register_comment id2 c2).2
      = (reg.register_comment id1 c1).2.register_all more ∧
    (((reg.register_comment id1 c1).2.register_all more).register_comment id2 c2).2.find id1
      = some c1 ∧
    (((reg.register_comment id1 c1).2.register_all more).register_comment id2 c2).2.find id2
      = some c1 ∧
    (∀ (r : comment_registry) (id : comment_id) (c : comment),
      (r.register_comment id c).1 = true ↔ r.find id = none) ∧
    (∀ id : comment_id, detail.equivalent id id = true) := by
  have hkey : id1.key = id2.key := (equivalent_iff id1 id2).mp heq
  have h1 : ((reg.register_comment id1 c1).2.register_all more).find id1 = some c1 :=
    find_register_all_of_some more (find_after_register c1 hreg rfl)
  have h2 : ((reg.register_comment id1 c1).2.register_all more).find id2 = some c1 :=
    find_register_all_of_some more (find_after_register c1 hreg hkey)
  generalize (reg.register_comment id1 c1).2.register_all more = later at h1 h2
  have hsame : later.register_comment id2 c2 = (false, later) := by
    simp [comment_registry.register_comment, h2]
  rw [hsame]
  exact ⟨rfl, rfl, h1, h2, register_comment_fst,
    fun id => (equivalent_iff id id).mpr rfl⟩

/-- Witness of C5: ("/a/b/foo.h", 5) and ("foo.h", 5) give identifiers that compare
equal; a name is registered in between. -/
theorem duplicate_registration_rejected_witness :
    (((comment_registry.empty.register_comment ⟨"foo.h".toList, 5⟩ sample_plain).2.register_all
        [(comment_id.mk_name "widget".toList, sample_override)]).register_comment
        ⟨"foo.h".toList, 5⟩ sample_excluded).1 = false ∧
    comment_id.mk_location "/a/b/foo.h".toList 5 = .ok ⟨"foo.h".toList, 5⟩ ∧
    comment_id.mk_location "foo.h".toList 5 = .ok ⟨"foo.h".toList, 5⟩ :=
  ⟨(duplicate_registration_rejected comment_registry.empty ⟨"foo.h".toList, 5⟩
      ⟨"foo.h".toList, 5⟩ sample_plain sample_excluded
      [(comment_id.mk_name "widget".toList, sample_override)] (by decide) (by decide)).1,
   by decide, by decide⟩

/-! ## Lemmas on the scanning loops -/

/-- What the loop of `file_name()` collects when a `'$'` is ahead: the characters
before the first `'$'`. -/
theorem file_name_loop_eq {x : List Char} (y : List Char) (h : '$' ∈ x) :
    comment_id.file_name_loop (x ++ y) = .ok (x.takeWhile (fun c => c != '$')) := by
  induction x with
  | nil => simp at h
  | cons a t ih =>
    by_cases ha : a = '$'
    · simp [comment_id.file_name_loop, ha]
    · have ht : '$' ∈ t := by
        rcases List.mem_cons.mp h with e | e
        · exact absurd e.symm ha
        · exact e
      simp [comment_id.file_name_loop, ha, ih ht]

/-- Where the loop of `inline_entity_name()` stops when a `'$'` is ahead: at the first
`'$'`. -/
theorem inline_entity_name_loop_eq {x : List Char} (y : List Char) (h : '$' ∈ x) :
    comment_id.inline_entity_name_loop (x ++ y)
      = .ok (x.dropWhile (fun c => c != '$') ++ y) := by
  induction x with
  | nil => simp at h
  | cons a t ih =>
    by_cases ha : a = '$'
    · simp [comment_id.inline_entity_name_loop, ha]
    · have ht : '$' ∈ t := by
        rcases List.mem_cons.mp h with e | e
        · exact absurd e.symm ha
        · exact e
      simp [comment_id.inline_entity_name_loop, ha, ih ht]

/-- Reading a string stops at the first NUL and returns what precedes it. -/
theorem read_c_string_eq {x : List Char} (y : List Char) (h : NUL ∉ x) :
    read_c_string (x ++ NUL :: y) = .ok x := by
  induction x with
  | nil => simp [read_c_string]
  | cons a t ih =>
    have ha : a ≠ NUL := fun e => h (by simp [e])
    have ht : NUL ∉ t := fun e => h (List.mem_cons_of_mem _ e)
    simp [read_c_string, ha, ih ht]

theorem takeWhile_before_dollar {f : List Char} (rest : List Char) (h : '$' ∉ f) :
    (f ++ '$' :: rest).takeWhile (fun c => c != '$') = f := by
  induction f with
  | nil => simp
  | cons a t ih =>
    have ha : a ≠ '$' := fun e => h (by simp [e])
    have ht : '$' ∉ t := fun e => h (List.mem_cons_of_mem _ e)
    simp [ha, ih ht]

theorem dropWhile_before_dollar {f : List Char} (rest : List Char) (h : '$' ∉ f) :
    (f ++ '$' :: rest).dropWhile (fun c => c != '$') = '$' :: rest := by
  induction f with
  | nil => simp
  | cons a t ih =>
    have ha : a ≠ '$' := fun e => h (by simp [e])
    have ht : '$' ∉ t := fun e => h (List.mem_cons_of_mem _ e)
    simp [ha, ih ht]

/-- A path either holds no separator, or splits at its last separator. -/
theorem path_cases (path : List Char) :
    (∀ c ∈ path, c ∉ path_separators) ∨
    ∃ pre x f, path = pre ++ x :: f ∧ x ∈ path_separators ∧
      ∀ c ∈ f, c ∉ path_separators := by
  cases h : last_index_of path_separators path with
  | none => exact Or.inl (last_index_of_none h)
  | some i =>
    obtain ⟨pre, x, f, hs, _, hx, hf⟩ := last_index_of_some h
    exact Or.inr ⟨pre, x, f, hs, hx, hf⟩

theorem final_component_suffix (path : List Char) : final_component path <:+ path := by
  rcases path_cases path with h | ⟨pre, x, f, hs, hx, hf⟩
  · rw [final_component_of_no_separator h]
  · rw [hs, final_component_append hx hf]
    exact (List.suffix_cons x f).trans (List.suffix_append pre (x :: f))

theorem final_component_no_separator (path : List Char) :
    ∀ c ∈ final_component path, c ∉ path_separators := by
  rcases path_cases path with h | ⟨pre, x, f, hs, hx, hf⟩
  · rw [final_component_of_no_separator h]
    exact h
  · rw [hs, final_component_append hx hf]
    exact hf

theorem final_component_longest (path g : List Char) (hg : g <:+ path)
    (hfree : ∀ c ∈ g, c ∉ path_separators) : g <:+ final_component path := by
  rcases path_cases path with h | ⟨pre, x, f, hs, hx, hf⟩
  · rw [final_component_of_no_separator h]
    exact hg
  · rw [hs, final_component_append hx hf]
    have hxf : x :: f <:+ path := by
      rw [hs]
      exact List.suffix_append pre (x :: f)
    rcases List.suffix_or_suffix_of_suffix hg hxf with h1 | h1
    · rcases List.suffix_cons_iff.mp h1 with h2 | h2
      · exact absurd hx (hfree x (by simp [h2]))
      · exact h2
    · exact absurd hx (hfree x (h1.mem (by simp)))

/-! ## Claims on the string functions -/

/-- C15: for every path string `p` (a C++ string value, `well_formed`) whose final
component holds no `'$'`, every line `n > 0` and every entity name `e` without NUL, the
Inline-location constructor returns an identifier whose `file_name()` is the final
component of `p`, whose `line()` is `n` and whose `inline_entity_name()` is `e`; the loop
of `file_name()` returns after collecting the file name and the loop of
`inline_entity_name()` stops at the `'$'` in front of `e`, neither reading past the
terminator of the stored string. -/
theorem inline_location_round_trip (p e : List Char) (n : Nat) (hp : well_formed p)
    (he : NUL ∉ e) (hn : 0 < n) (hd : '$' ∉ final_component p) :
    ∃ id, comment_id.mk_inline_location p n e = .ok id ∧
      id.file_name = .ok (final_component p) ∧
      id.line = .ok n ∧
      id.inline_entity_name = .ok e ∧
      comment_id.file_name_loop ((buffer id.file_name_or_name_).drop 1)
        = .ok (final_component p) ∧
      comment_id.inline_entity_name_loop ((buffer id.file_name_or_name_).drop 1)
        = .ok ('$' :: buffer e) := by
  have hn0 : n ≠ 0 := by omega
  have hmk := mk_inline_location_well_formed e hp hn0
  rw [c_str_of_no_nul he] at hmk
  have hh : ('$' :: (final_component p ++ '$' :: e)).head? = some '$' := by simp
  have hinl := @is_inline_location_of_dollar _ n hn0 hh
  have hloc := @is_location_of_dollar _ n hh
  have hmem : '$' ∈ final_component p ++ '$' :: e := by simp
  have hfile := file_name_loop_eq [NUL] hmem
  have hent := inline_entity_name_loop_eq [NUL] hmem
  rw [takeWhile_before_dollar e hd] at hfile
  rw [dropWhile_before_dollar e hd] at hent
  have hbuf : (buffer ('$' :: (final_component p ++ '$' :: e))).drop 1
      = (final_component p ++ '$' :: e) ++ [NUL] := by simp [buffer]
  refine ⟨_, hmk, ?_, ?_, ?_, ?_, ?_⟩
  · simp only [comment_id.file_name, hinl, hloc, comment_id.is_name, hbuf, hfile]
    simp [hn0]
  · simp [comment_id.line, hinl]
  · simp only [comment_id.inline_entity_name, hinl, hbuf, hent]
    simpa using read_c_string_eq [] he
  · rw [hbuf, hfile]
  · rw [hbuf, hent]
    rfl

/-- Witness of C15: "inc/macros.h", line 10 and the entity name "RED$1". -/
theorem inline_location_round_trip_witness :
    ∃ id, comment_id.mk_inline_location "inc/macros.h".toList 10 "RED$1".toList = .ok id ∧
      id.file_name = .ok (final_component "inc/macros.h".toList) ∧
      id.line = .ok 10 ∧
      id.inline_entity_name = .ok "RED$1".toList ∧
      comment_id.file_name_loop ((buffer id.file_name_or_name_).drop 1)
        = .ok (final_component "inc/macros.h".toList) ∧
      comment_id.inline_entity_name_loop ((buffer id.file_name_or_name_).drop 1)
        = .ok ('$' :: buffer "RED$1".toList) :=
  inline_location_round_trip "inc/macros.h".toList "RED$1".toList 10 (by decide)
    (by decide) (by decide) (by decide)

/-- C16: on every path string (of a size below `npos`) `get_file_name` returns the
longest suffix of the path that holds none of `'/'`, `'\\'` and `':'`: the whole path
when none of them occurs, the empty string when the path ends in one of them; and
`get_file_name` applied to its own result returns that result. -/
theorem get_file_name_longest_suffix (path : List Char) (hsz : path.length < 2 ^ 64 - 1) :
    ∃ f, get_file_name path = .ok f ∧
      f <:+ path ∧
      (∀ c ∈ f, c ≠ '/' ∧ c ≠ '\\' ∧ c ≠ ':') ∧
      (∀ g, g <:+ path → (∀ c ∈ g, c ≠ '/' ∧ c ≠ '\\' ∧ c ≠ ':') →
        g <:+ f ∧ g.length ≤ f.length) ∧
      ((∀ c ∈ path, c ≠ '/' ∧ c ≠ '\\' ∧ c ≠ ':') → f = path) ∧
      (∀ pre s, path = pre ++ [s] → (s = '/' ∨ s = '\\' ∨ s = ':') → f = []) ∧
      get_file_name f = .ok f := by
  have hsep : ∀ c : Char, (c ≠ '/' ∧ c ≠ '\\' ∧ c ≠ ':') ↔ c ∉ path_separators := by
    intro c
    simp [path_separators]
  refine ⟨final_component path, get_file_name_eq hsz, final_component_suffix path, ?_, ?_,
    ?_, ?_, ?_⟩
  · intro c hc
    exact (hsep c).mpr (final_component_no_separator path c hc)
  · intro g hg hfree
    have := final_component_longest path g hg (fun c hc => (hsep c).mp (hfree c hc))
    exact ⟨this, this.length_le⟩
  · intro h
    exact final_component_of_no_separator (fun c hc => (hsep c).mp (h c hc))
  · intro pre s hs hsepar
    have hmem : s ∈ path_separators := by
      simp only [path_separators, List.mem_cons, List.mem_singleton, List.not_mem_nil,
        or_false]
      exact hsepar
    rw [hs]
    exact final_component_append hmem (by simp)
  · have hlen : (final_component path).length < 2 ^ 64 - 1 :=
      Nat.lt_of_le_of_lt (final_component_suffix path).length_le hsz
    rw [get_file_name_eq hlen,
      final_component_of_no_separator (final_component_no_separator path)]

/-- Witness of C16: the path "c:\\src\\a/b.hpp". -/
theorem get_file_name_longest_suffix_witness :
    ∃ f, get_file_name "c:\\src\\a/b.hpp".toList = .ok f ∧
      f <:+ "c:\\src\\a/b.hpp".toList ∧
      (∀ c ∈ f, c ≠ '/' ∧ c ≠ '\\' ∧ c ≠ ':') ∧
      (∀ g, g <:+ "c:\\src\\a/b.hpp".toList → (∀ c ∈ g, c ≠ '/' ∧ c ≠ '\\' ∧ c ≠ ':') →
        g <:+ f ∧ g.length ≤ f.length) ∧
      ((∀ c ∈ "c:\\src\\a/b.hpp".toList, c ≠ '/' ∧ c ≠ '\\' ∧ c ≠ ':') →
        f = "c:\\src\\a/b.hpp".toList) ∧
      (∀ pre s, "c:\\src\\a/b.hpp".toList = pre ++ [s] →
        (s = '/' ∨ s = '\\' ∨ s = ':') → f = []) ∧
      get_file_name f = .ok f :=
  get_file_name_longest_suffix "c:\\src\\a/b.hpp".toList (by decide)

/-! ## The comparator as an order -/

theorem string_lt_nil_right (a : List Char) : string_lt a [] = false := by
  cases a <;> rfl

theorem string_lt_cons_iff (x y : Char) (xs ys : List Char) :
    string_lt (x :: xs) (y :: ys) = true ↔ x < y ∨ (x = y ∧ string_lt xs ys = true) := by
  simp only [string_lt]
  by_cases h1 : x < y
  · simp [h1]
  · by_cases h2 : y < x
    · have hne : x ≠ y := fun e => h1 (e ▸ h2)
      simp [h1, h2, hne]
    · have hxy : x = y := le_antisymm (not_lt.mp h2) (not_lt.mp h1)
      simp [h1, h2, hxy]

theorem string_lt_trans (a b c : List Char) (hab : string_lt a b = true)
    (hbc : string_lt b c = true) : string_lt a c = true := by
  induction a generalizing b c with
  | nil =>
    cases c with
    | nil => rw [string_lt_nil_right] at hbc; exact absurd hbc (by simp)
    | cons z zs => rfl
  | cons x xs ih =>
    cases b with
    | nil => rw [string_lt_nil_right] at hab; exact absurd hab (by simp)
    | cons y ys =>
      cases c with
      | nil => rw [string_lt_nil_right] at hbc; exact absurd hbc (by simp)
      | cons z zs =>
        rw [string_lt_cons_iff] at hab hbc ⊢
        rcases hab with h1 | ⟨h1, h1t⟩
        · rcases hbc with h2 | ⟨h2, _⟩
          · exact Or.inl (lt_trans h1 h2)
          · exact Or.inl (h2 ▸ h1)
        · rcases hbc with h2 | ⟨h2, h2t⟩
          · exact Or.inl (h1 ▸ h2)
          · exact Or.inr ⟨h1.trans h2, ih ys zs h1t h2t⟩

theorem entity_lt_trans (a b c : Option (List Char)) (hab : entity_lt a b = true)
    (hbc : entity_lt b c = true) : entity_lt a c = true := by
  cases a with
  | none =>
    cases c with
    | none => cases b <;> simp [entity_lt] at hbc
    | some z => rfl
  | some x =>
    cases b with
    | none => simp [entity_lt] at hab
    | some y =>
      cases c with
      | none => simp [entity_lt] at hbc
      | some z =>
        simp only [entity_lt] at hab hbc ⊢
        exact string_lt_trans x y z hab hbc

theorem id_key_lt_location_iff (fa fb : List Char) (la lb : Nat)
    (ea eb : Option (List Char)) :
    id_key.lt (.location fa la ea) (.location fb lb eb) = true ↔
      string_lt fa fb = true ∨
        (fa = fb ∧ (la < lb ∨ (la = lb ∧ entity_lt ea eb = true))) := by
  simp [id_key.lt]

theorem id_key_lt_trans (i j k : id_key) (hij : id_key.lt i j = true)
    (hjk : id_key.lt j k = true) : id_key.lt i k = true := by
  cases i with
  | name a =>
    cases j with
    | name b =>
      cases k with
      | name c =>
        simp only [id_key.lt] at hij hjk ⊢
        exact string_lt_trans a b c hij hjk
      | location g m d => rfl
    | location f l e =>
      cases k with
      | name c => simp [id_key.lt] at hjk
      | location g m d => rfl
  | location fa la ea =>
    cases j with
    | name b => simp [id_key.lt] at hij
    | location fb lb eb =>
      cases k with
      | name c => simp [id_key.lt] at hjk
      | location fc lc ec =>
        rw [id_key_lt_location_iff] at hij hjk ⊢
        rcases hij with h1 | ⟨h1, h1r⟩
        · rcases hjk with h2 | ⟨h2, _⟩
          · exact Or.inl (string_lt_trans fa fb fc h1 h2)
          · exact Or.inl (h2 ▸ h1)
        · rcases hjk with h2 | ⟨h2, h2r⟩
          · exact Or.inl (h1 ▸ h2)
          · refine Or.inr ⟨h1.trans h2, ?_⟩
            rcases h1r with h3 | ⟨h3, h3e⟩
            · rcases h2r with h4 | ⟨h4, _⟩
              · exact Or.inl (by omega)
              · exact Or.inl (by omega)
            · rcases h2r with h4 | ⟨h4, h4e⟩
              · exact Or.inl (by omega)
              · exact Or.inr ⟨h3.trans h4, entity_lt_trans ea eb ec h3e h4e⟩

theorem id_key_lt_asymm (j k : id_key) (h : id_key.lt j k = true) :
    id_key.lt k j = false := by
  cases hkj : id_key.lt k j with
  | false => rfl
  | true =>
    have := id_key_lt_trans j k j h hkj
    rw [id_key_lt_irrefl] at this
    exact absurd this (by simp)

/-- Keys that differ are ordered one way and not the other. -/
theorem id_key_lt_total (j k : id_key) (h : j ≠ k) :
    (id_key.lt j k = true ∧ id_key.lt k j = false) ∨
    (id_key.lt j k = false ∧ id_key.lt k j = true) := by
  cases hjk : id_key.lt j k with
  | true => exact Or.inl ⟨rfl, id_key_lt_asymm j k hjk⟩
  | false =>
    cases hkj : id_key.lt k j with
    | true => exact Or.inr ⟨rfl, rfl⟩
    | false => exact absurd (id_key_lt_connected j k hjk hkj) h

theorem key_of_name {id : comment_id} (h : id.is_name = true) :
    id.key = .name id.file_name_or_name_ := by
  simp [comment_id.key, h]

theorem key_of_split {id : comment_id} {f e : List Char} (h : id.is_name = false)
    (hs : split_inline id.file_name_or_name_ = some (f, e)) :
    id.key = .location f id.line_ (some e) := by
  simp [comment_id.key, h, hs]

theorem key_of_plain {id : comment_id} (h : id.is_name = false)
    (hs : split_inline id.file_name_or_name_ = none) :
    id.key = .location id.file_name_or_name_ id.line_ none := by
  simp [comment_id.key, h, hs]

theorem dropWhile_at_dollar {r : List Char} (h : '$' ∈ r) :
    r.dropWhile (fun x => x != '$')
      = '$' :: (r.dropWhile (fun x => x != '$')).drop 1 := by
  induction r with
  | nil => simp at h
  | cons a t ih =>
    by_cases ha : a = '$'
    · simp [ha]
    · have ht : '$' ∈ t := by
        rcases List.mem_cons.mp h with e | e
        · exact absurd e.symm ha
        · exact e
      simpa [ha] using ih ht

/-- A stored string that splits is the leading `'$'`, the file name, the separator and
the entity name. -/
theorem split_inline_some {s f e : List Char} (h : split_inline s = some (f, e)) :
    s = '$' :: (f ++ '$' :: e) := by
  cases s with
  | nil => simp [split_inline] at h
  | cons c r =>
    simp only [split_inline] at h
    by_cases hc : c = '$' ∧ '$' ∈ r
    · rw [if_pos hc] at h
      simp only [Option.some.injEq, Prod.mk.injEq] at h
      obtain ⟨hf, he⟩ := h
      have hsplit := List.takeWhile_append_dropWhile (fun x => x != '$') r
      rw [dropWhile_at_dollar hc.2, hf, he] at hsplit
      rw [hc.1, hsplit]
    · rw [if_neg hc] at h
      exact absurd h (by simp)

/-- Identifiers compared by the same parts are the same identifier. -/
theorem key_injective {a b : comment_id} (h : a.key = b.key) : a = b := by
  obtain ⟨sa, la⟩ := a
  obtain ⟨sb, lb⟩ := b
  cases hna : (comment_id.mk sa la).is_name <;> cases hnb : (comment_id.mk sb lb).is_name
  · cases hsa : split_inline sa with
    | none =>
      cases hsb : split_inline sb with
      | none =>
        rw [key_of_plain hna hsa, key_of_plain hnb hsb] at h
        simp only [id_key.location.injEq, and_true] at h
        rw [h.1, h.2]
      | some q =>
        obtain ⟨f, e⟩ := q
        rw [key_of_plain hna hsa, key_of_split hnb hsb] at h
        simp at h
    | some q =>
      obtain ⟨f, e⟩ := q
      cases hsb : split_inline sb with
      | none =>
        rw [key_of_split hna hsa, key_of_plain hnb hsb] at h
        simp at h
      | some q2 =>
        obtain ⟨f2, e2⟩ := q2
        rw [key_of_split hna hsa, key_of_split hnb hsb] at h
        simp only [id_key.location.injEq, Option.some.injEq] at h
        have h1 := split_inline_some hsa
        have h2 := split_inline_some hsb
        rw [h1, h2, h.1, h.2.1, h.2.2]
  · have hk := key_of_name hnb
    cases hsa : split_inline sa with
    | none => rw [key_of_plain hna hsa, hk] at h; simp at h
    | some q =>
      obtain ⟨f, e⟩ := q
      rw [key_of_split hna hsa, hk] at h
      simp at h
  · have hk := key_of_name hna
    cases hsb : split_inline sb with
    | none => rw [key_of_plain hnb hsb, hk] at h; simp at h
    | some q =>
      obtain ⟨f, e⟩ := q
      rw [key_of_split hnb hsb, hk] at h
      simp at h
  · rw [key_of_name hna, key_of_name hnb] at h
    simp only [id_key.name.injEq] at h
    simp only [comment_id.is_name, beq_iff_eq] at hna hnb
    rw [h, hna, hnb]

theorem key_ne_of_ne {a b : comment_id} (h : a ≠ b) : a.key ≠ b.key :=
  fun hk => h (key_injective hk)

/-- Identifiers are equivalent keys only when they are the same identifier. -/
theorem equivalent_iff_eq (a b : comment_id) : detail.equivalent a b = true ↔ a = b := by
  rw [equivalent_iff]
  exact ⟨key_injective, fun h => by rw [h]⟩

theorem is_name_of_file_name {id : comment_id} {f : List Char}
    (h : id.file_name = .ok f) : id.is_name = false := by
  cases hn : id.is_name with
  | false => rfl
  | true => simp [comment_id.file_name, hn] at h

theorem is_inline_of_entity_name {id : comment_id} {e : List Char}
    (h : id.inline_entity_name = .ok e) : id.is_inline_location = true := by
  cases hi : id.is_inline_location with
  | true => rfl
  | false => simp [comment_id.inline_entity_name, hi] at h

theorem is_name_of_inline {id : comment_id} (h : id.is_inline_location = true) :
    id.is_name = false := by
  rcases form_cases id with hc | hc | hc
  · rw [hc.2.2] at h
    exact absurd h (by simp)
  · exact hc.1
  · exact hc.1

theorem head_of_inline {id : comment_id} (h : id.is_inline_location = true) :
    id.file_name_or_name_.head? = some '$' := by
  by_contra hc
  have hb := buffer_head_ne_dollar hc
  have hname := is_name_of_inline h
  simp [comment_id.is_inline_location, comment_id.is_location, hname, hb] at h

theorem head_of_location {id : comment_id} (h : id.is_location = true) :
    id.file_name_or_name_.head? ≠ some '$' := by
  intro hc
  have hb := buffer_head_eq_dollar hc
  simp [comment_id.is_location, hb] at h

/-- On an identifier in Location form the comparator takes the stored string as the
file name, which is what `file_name()` returns. -/
theorem parts_of_location {id : comment_id} (h : id.is_location = true) :
    id.file_name = .ok id.file_name_or_name_ ∧
    id.key = .location id.file_name_or_name_ id.line_ none := by
  have hname : id.is_name = false := by
    rcases form_cases id with hc | hc | hc
    · rw [hc.2.1] at h; exact absurd h (by simp)
    · exact hc.1
    · exact hc.1
  have hhead := head_of_location h
  have hsplit : split_inline id.file_name_or_name_ = none := by
    cases hs : id.file_name_or_name_ with
    | nil => rfl
    | cons c r =>
      rw [hs] at hhead
      have hc : c ≠ '$' := by simpa using hhead
      simp [split_inline, hc]
  exact ⟨by simp [comment_id.file_name, hname, h], key_of_plain hname hsplit⟩

/-- On an identifier in Inline-location form whose `file_name()` returns, the
comparator takes the file name `file_name()` returns and, on a stored string without
NUL, the entity name `inline_entity_name()` returns. -/
theorem parts_of_inline {id : comment_id} {f : List Char}
    (h : id.is_inline_location = true) (hf : id.file_name = .ok f) :
    ∃ e, id.key = .location f id.line_ (some e) ∧
      (NUL ∉ id.file_name_or_name_ → id.inline_entity_name = .ok e) := by
  have hname := is_name_of_inline h
  have hloc : id.is_location = false := by
    rcases form_cases id with hc | hc | hc
    · exact hc.2.1
    · rw [hc.2.2] at h; exact absurd h (by simp)
    · exact hc.2.1
  have hhead := head_of_inline h
  cases hs : id.file_name_or_name_ with
  | nil => rw [hs] at hhead; simp at hhead
  | cons c r =>
    rw [hs] at hhead
    have hc : c = '$' := by simpa using hhead
    have hbuf : (buffer (c :: r)).drop 1 = r ++ [NUL] := by simp [buffer]
    have hfile : comment_id.file_name_loop (r ++ [NUL]) = .ok f := by
      simpa [comment_id.file_name, hname, hloc, h, hs, hbuf] using hf
    have hmem : '$' ∈ r := by
      by_contra hno
      have := file_name_loop_overrun hno
      rw [buffer, hfile] at this
      exact absurd this (by simp)
    rw [file_name_loop_eq [NUL] hmem] at hfile
    simp only [Result.ok.injEq] at hfile
    have hsplit : split_inline id.file_name_or_name_
        = some (f, (r.dropWhile (fun x => x != '$')).drop 1) := by
      rw [hs]
      simp only [split_inline, hc, hmem, and_self, if_true, hfile]
    refine ⟨_, key_of_split hname hsplit, ?_⟩
    intro hnul
    have hrest : NUL ∉ (r.dropWhile (fun x => x != '$')).drop 1 := by
      intro hm
      have h1 := (List.drop_suffix 1 _).mem hm
      have h2 := (List.dropWhile_suffix _).mem h1
      exact hnul (List.mem_cons_of_mem _ h2)
    have hloop := inline_entity_name_loop_eq [NUL] hmem
    rw [dropWhile_at_dollar hmem] at hloop
    simp only [comment_id.inline_entity_name, h, hs, hbuf, hloop]
    simpa using read_c_string_eq [] hrest

/-- The parts the comparator takes from an identifier whose `file_name()` returns. -/
theorem parts_of_file_name {id : comment_id} {f : List Char} (hf : id.file_name = .ok f) :
    ∃ ent, id.key = .location f id.line_ ent ∧
      (id.is_location = true → ent = none) ∧
      (id.is_inline_location = true → ∃ e, ent = some e ∧
        (NUL ∉ id.file_name_or_name_ → id.inline_entity_name = .ok e)) := by
  rcases form_cases id with hc | hc | hc
  · have := is_name_of_file_name hf
    rw [hc.1] at this
    exact absurd this (by simp)
  · obtain ⟨h1, h2⟩ := parts_of_location hc.2.1
    rw [h1] at hf
    simp only [Result.ok.injEq] at hf
    rw [hf] at h2
    refine ⟨none, h2, fun _ => rfl, fun hi => ?_⟩
    rw [hc.2.2] at hi
    exact absurd hi (by simp)
  · obtain ⟨e, h1, h2⟩ := parts_of_inline hc.2.2 hf
    refine ⟨some e, h1, fun hl => ?_, fun _ => ⟨e, rfl, h2⟩⟩
    rw [hc.2.1] at hl
    exact absurd hl (by simp)

/-- Identifiers that differ in form, name, file name, line or inline entity name are
different identifiers. -/
theorem ne_of_differ (a b : comment_id)
    (h : a.is_name ≠ b.is_name ∨ a.is_location ≠ b.is_location ∨
      a.is_inline_location ≠ b.is_inline_location ∨
      (a.is_name = true ∧ b.is_name = true ∧ a.unique_name ≠ b.unique_name) ∨
      (a.is_name = false ∧ b.is_name = false ∧ a.line ≠ b.line) ∨
      (∃ fa fb, a.file_name = .ok fa ∧ b.file_name = .ok fb ∧ fa ≠ fb) ∨
      (∃ ea eb, a.inline_entity_name = .ok ea ∧ b.inline_entity_name = .ok eb ∧
        ea ≠ eb)) :
    a ≠ b := by
  intro hab
  subst hab
  rcases h with h | h | h | ⟨_, _, h⟩ | ⟨_, _, h⟩ | ⟨fa, fb, ha, hb, h⟩ |
      ⟨ea, eb, ha, hb, h⟩
  · exact h rfl
  · exact h rfl
  · exact h rfl
  · exact h rfl
  · exact h rfl
  · rw [ha] at hb
    simp only [Result.ok.injEq] at hb
    exact h hb
  · rw [ha] at hb
    simp only [Result.ok.injEq] at hb
    exact h hb

/-! ## Claims on the comparator -/

/-- C11: `detail::comment_compare` is a strict total order on identifiers: it is
irreflexive and transitive, and of every two different identifiers, so of every two
that differ in form, name, file name, line or inline entity name, exactly one is ordered
before the other. Name-form identifiers are ordered by name; location-bearing ones by
the file name `file_name()` returns, then by line, then by the inline entity name
`inline_entity_name()` returns (on C++ strings, without NUL), an identifier in Location
form before one in Inline-location form. -/
theorem comment_compare_strict_total_order :
    (∀ a : comment_id, detail.comment_compare a a = false) ∧
    (∀ a b c : comment_id, detail.comment_compare a b = true →
      detail.comment_compare b c = true → detail.comment_compare a c = true) ∧
    (∀ a b : comment_id, a ≠ b →
      (detail.comment_compare a b = true ∧ detail.comment_compare b a = false) ∨
      (detail.comment_compare a b = false ∧ detail.comment_compare b a = true)) ∧
    (∀ a b : comment_id,
      (a.is_name ≠ b.is_name ∨ a.is_location ≠ b.is_location ∨
        a.is_inline_location ≠ b.is_inline_location ∨
        (a.is_name = true ∧ b.is_name = true ∧ a.unique_name ≠ b.unique_name) ∨
        (a.is_name = false ∧ b.is_name = false ∧ a.line ≠ b.line) ∨
        (∃ fa fb, a.file_name = .ok fa ∧ b.file_name = .ok fb ∧ fa ≠ fb) ∨
        (∃ ea eb, a.inline_entity_name = .ok ea ∧ b.inline_entity_name = .ok eb ∧
          ea ≠ eb)) →
      (detail.comment_compare a b = true ∧ detail.comment_compare b a = false) ∨
      (detail.comment_compare a b = false ∧ detail.comment_compare b a = true)) ∧
    (∀ x y : List Char,
      detail.comment_compare (comment_id.mk_name x) (comment_id.mk_name y)
        = string_lt x y) ∧
    (∀ (a b : comment_id) (fa fb : List Char), a.file_name = .ok fa →
      b.file_name = .ok fb → string_lt fa fb = true →
      detail.comment_compare a b = true) ∧
    (∀ (a b : comment_id) (f : List Char), a.file_name = .ok f → b.file_name = .ok f →
      a.line_ < b.line_ → detail.comment_compare a b = true) ∧
    (∀ (a b : comment_id) (f : List Char), a.file_name = .ok f → b.file_name = .ok f →
      a.line_ = b.line_ → a.is_location = true → b.is_inline_location = true →
      detail.comment_compare a b = true) ∧
    (∀ (a b : comment_id) (f ea eb : List Char), a.file_name = .ok f →
      b.file_name = .ok f → a.line_ = b.line_ → a.inline_entity_name = .ok ea →
      b.inline_entity_name = .ok eb → NUL ∉ a.file_name_or_name_ →
      NUL ∉ b.file_name_or_name_ →
      detail.comment_compare a b = string_lt ea eb) := by
  refine ⟨?_, ?_, ?_, ?_, ?_, ?_, ?_, ?_, ?_⟩
  · intro a
    exact id_key_lt_irrefl a.key
  · intro a b c hab hbc
    exact id_key_lt_trans a.key b.key c.key hab hbc
  · intro a b h
    exact id_key_lt_total a.key b.key (key_ne_of_ne h)
  · intro a b h
    exact id_key_lt_total a.key b.key (key_ne_of_ne (ne_of_differ a b h))
  · intro x y
    simp [detail.comment_compare, comment_id.key, comment_id.mk_name, comment_id.is_name,
      id_key.lt]
  · intro a b fa fb ha hb hlt
    obtain ⟨enta, hka, _, _⟩ := parts_of_file_name ha
    obtain ⟨entb, hkb, _, _⟩ := parts_of_file_name hb
    unfold detail.comment_compare
    rw [hka, hkb, id_key_lt_location_iff]
    exact Or.inl hlt
  · intro a b f ha hb hlt
    obtain ⟨enta, hka, _, _⟩ := parts_of_file_name ha
    obtain ⟨entb, hkb, _, _⟩ := parts_of_file_name hb
    unfold detail.comment_compare
    rw [hka, hkb, id_key_lt_location_iff]
    exact Or.inr ⟨rfl, Or.inl hlt⟩
  · intro a b f ha hb hl hal hbi
    obtain ⟨enta, hka, hnone, _⟩ := parts_of_file_name ha
    obtain ⟨entb, hkb, _, hsome⟩ := parts_of_file_name hb
    obtain ⟨e, he, _⟩ := hsome hbi
    unfold detail.comment_compare
    rw [hka, hkb, id_key_lt_location_iff, hnone hal, he]
    exact Or.inr ⟨rfl, Or.inr ⟨hl, rfl⟩⟩
  · intro a b f ea eb ha hb hl hea heb hna hnb
    obtain ⟨enta, hka, _, hsa⟩ := parts_of_file_name ha
    obtain ⟨entb, hkb, _, hsb⟩ := parts_of_file_name hb
    obtain ⟨xa, hxa, hra⟩ := hsa (is_inline_of_entity_name hea)
    obtain ⟨xb, hxb, hrb⟩ := hsb (is_inline_of_entity_name heb)
    have h1 := hra hna
    have h2 := hrb hnb
    rw [hea] at h1
    rw [heb] at h2
    simp only [Result.ok.injEq] at h1 h2
    unfold detail.comment_compare
    rw [hka, hkb, hxa, hxb, ← h1, ← h2]
    simp [id_key.lt, hl, entity_lt, string_lt_irrefl]

/-- Witness of C11: the identifiers the Location constructor returns for "$foo.h" and
"$bar.h" on line 3 are ordered one way only; so are the identifiers of "BLUE" and "RED"
on line 10 of "a.h", and the plain location of a line comes before them. -/
theorem comment_compare_strict_total_order_witness :
    ((detail.comment_compare ⟨"$foo.h".toList, 3⟩ ⟨"$bar.h".toList, 3⟩ = true ∧
        detail.comment_compare ⟨"$bar.h".toList, 3⟩ ⟨"$foo.h".toList, 3⟩ = false) ∨
      (detail.comment_compare ⟨"$foo.h".toList, 3⟩ ⟨"$bar.h".toList, 3⟩ = false ∧
        detail.comment_compare ⟨"$bar.h".toList, 3⟩ ⟨"$foo.h".toList, 3⟩ = true)) ∧
    ((detail.comment_compare ⟨"$a.h$BLUE".toList, 10⟩ ⟨"$a.h$RED".toList, 10⟩ = true ∧
        detail.comment_compare ⟨"$a.h$RED".toList, 10⟩ ⟨"$a.h$BLUE".toList, 10⟩ = false) ∨
      (detail.comment_compare ⟨"$a.h$BLUE".toList, 10⟩ ⟨"$a.h$RED".toList, 10⟩ = false ∧
        detail.comment_compare ⟨"$a.h$RED".toList, 10⟩ ⟨"$a.h$BLUE".toList, 10⟩ = true)) ∧
    detail.comment_compare ⟨"a.h".toList, 10⟩ ⟨"$a.h$RED".toList, 10⟩ = true ∧
    detail.comment_compare ⟨"a.h".toList, 9⟩ ⟨"a.h".toList, 10⟩ = true :=
  ⟨comment_compare_strict_total_order.2.2.1 ⟨"$foo.h".toList, 3⟩ ⟨"$bar.h".toList, 3⟩
      (by decide),
   comment_compare_strict_total_order.2.2.2.1 ⟨"$a.h$BLUE".toList, 10⟩
      ⟨"$a.h$RED".toList, 10⟩
      (Or.inr (Or.inr (Or.inr (Or.inr (Or.inr (Or.inr
        ⟨"BLUE".toList, "RED".toList, by decide, by decide, by decide⟩)))))),
   comment_compare_strict_total_order.2.2.2.2.2.2.2.1 ⟨"a.h".toList, 10⟩
      ⟨"$a.h$RED".toList, 10⟩ "a.h".toList (by decide) (by decide) (by decide)
      (by decide) (by decide),
   comment_compare_strict_total_order.2.2.2.2.2.2.1 ⟨"a.h".toList, 9⟩
      ⟨"a.h".toList, 10⟩ "a.h".toList (by decide) (by decide) (by decide)⟩

/-! ## Lemmas on inline identifiers -/

theorem c_str_no_nul (s : List Char) : NUL ∉ c_str s := by
  intro h
  have := List.mem_takeWhile_imp h
  simp at this

theorem get_file_name_suffix {x f : List Char} (h : get_file_name x = .ok f) :
    f <:+ x := by
  unfold get_file_name substr at h
  split at h
  · exact absurd h (by simp)
  · simp only [Result.ok.injEq] at h
    rw [← h]
    exact List.drop_suffix _ _

/-- Two registrations under identifiers compared by different parts, into the registry
that holds nothing. -/
theorem register_two {id1 id2 : comment_id} (c1 c2 : comment) (h : id1.key ≠ id2.key) :
    comment_registry.empty.register_comment id1 c1 = (true, ⟨[(id1, c1)]⟩) ∧
    (comment_registry.empty.register_comment id1 c1).2.register_comment id2 c2
      = (true, ⟨[(id1, c1), (id2, c2)]⟩) := by
  have h1 : comment_registry.empty.register_comment id1 c1 = (true, ⟨[(id1, c1)]⟩) := by
    simp [comment_registry.register_comment, comment_registry.find,
      comment_registry.empty]
  have h2 : (comment_registry.mk [(id1, c1)]).find id2 = none := by
    rw [find_eq_none_iff]
    intro entry hmem
    simp only [List.mem_singleton] at hmem
    rw [hmem]
    exact h
  refine ⟨h1, ?_⟩
  rw [h1]
  simp [comment_registry.register_comment, h2]

/-! ## Claims on inline identifiers in the registry -/

/-- C12: for every file, line `n > 0` and two different entity names `e1`, `e2` (C++
strings, without NUL), the Inline-location constructor returns two identifiers that are
different registry keys. When a comment is registered under each, `lookup_comment` for
an entity declared on that line as one of several, which matches no Name-form and no
Location-form identifier, returns the comment registered under `e1` when the entity is
named `e1` and the one under `e2` when it is named `e2`. In the registry that holds
just these two comments this is so for every such entity, whatever its canonical
name. -/
theorem inline_disambiguation (file e1 e2 : List Char) (n : Nat) (c1 c2 : comment)
    (hn : 0 < n) (h1 : NUL ∉ e1) (h2 : NUL ∉ e2) (hne : e1 ≠ e2) :
    ∃ id1 id2, comment_id.mk_inline_location file n e1 = .ok id1 ∧
      comment_id.mk_inline_location file n e2 = .ok id2 ∧
      id1 ≠ id2 ∧ detail.equivalent id1 id2 = false ∧
      (∀ (reg : comment_registry) (registry : cpp_entity_registry) (e : cpp_entity),
        (reg.register_comment id1 c1).1 = true →
        ((reg.register_comment id1 c1).2.register_comment id2 c2).1 = true →
        registry.location e = some (file, n) → e.shares_line = true →
        (∀ u, registry.unique_name e = some u →
          ((reg.register_comment id1 c1).2.register_comment id2 c2).2.find
            (comment_id.mk_name u) = none) →
        (∀ loc, comment_id.mk_location file n = .ok loc →
          ((reg.register_comment id1 c1).2.register_comment id2 c2).2.find loc = none) →
        (e.name = e1 →
          ((reg.register_comment id1 c1).2.register_comment id2 c2).2.lookup_comment
            registry e = .ok (some c1)) ∧
        (e.name = e2 →
          ((reg.register_comment id1 c1).2.register_comment id2 c2).2.lookup_comment
            registry e = .ok (some c2))) ∧
      (∀ (registry : cpp_entity_registry) (e : cpp_entity),
        registry.location e = some (file, n) → e.shares_line = true →
        (e.name = e1 →
          ((comment_registry.empty.register_comment id1 c1).2.register_comment
            id2 c2).2.lookup_comment registry e = .ok (some c1)) ∧
        (e.name = e2 →
          ((comment_registry.empty.register_comment id1 c1).2.register_comment
            id2 c2).2.lookup_comment registry e = .ok (some c2))) := by
  have hn0 : n ≠ 0 := by omega
  obtain ⟨f, hf⟩ := get_file_name_returns (c_str file)
  have hmk1 : comment_id.mk_inline_location file n e1
      = .ok ⟨'$' :: (f ++ '$' :: e1), n⟩ := by
    simp [comment_id.mk_inline_location, hf, hn0, c_str_of_no_nul h1]
  have hmk2 : comment_id.mk_inline_location file n e2
      = .ok ⟨'$' :: (f ++ '$' :: e2), n⟩ := by
    simp [comment_id.mk_inline_location, hf, hn0, c_str_of_no_nul h2]
  have hmkl : comment_id.mk_location file n = .ok ⟨f, n⟩ := by
    simp [comment_id.mk_location, hf, hn0]
  have hne1 : (comment_id.mk ('$' :: (f ++ '$' :: e1)) n)
      ≠ (comment_id.mk ('$' :: (f ++ '$' :: e2)) n) := by
    intro h
    simp only [comment_id.mk.injEq, List.cons.injEq, List.append_cancel_left_eq,
      true_and, and_true] at h
    exact hne h
  have hkne := key_ne_of_ne hne1
  have hgen : ∀ (reg : comment_registry) (registry : cpp_entity_registry)
      (e : cpp_entity),
      (reg.register_comment ⟨'$' :: (f ++ '$' :: e1), n⟩ c1).1 = true →
      ((reg.register_comment ⟨'$' :: (f ++ '$' :: e1), n⟩ c1).2.register_comment
        ⟨'$' :: (f ++ '$' :: e2), n⟩ c2).1 = true →
      registry.location e = some (file, n) → e.shares_line = true →
      (∀ u, registry.unique_name e = some u →
        ((reg.register_comment ⟨'$' :: (f ++ '$' :: e1), n⟩ c1).2.register_comment
          ⟨'$' :: (f ++ '$' :: e2), n⟩ c2).2.find (comment_id.mk_name u) = none) →
      (∀ loc, comment_id.mk_location file n = .ok loc →
        ((reg.register_comment ⟨'$' :: (f ++ '$' :: e1), n⟩ c1).2.register_comment
          ⟨'$' :: (f ++ '$' :: e2), n⟩ c2).2.find loc = none) →
      (e.name = e1 →
        ((reg.register_comment ⟨'$' :: (f ++ '$' :: e1), n⟩ c1).2.register_comment
          ⟨'$' :: (f ++ '$' :: e2), n⟩ c2).2.lookup_comment registry e
          = .ok (some c1)) ∧
      (e.name = e2 →
        ((reg.register_comment ⟨'$' :: (f ++ '$' :: e1), n⟩ c1).2.register_comment
          ⟨'$' :: (f ++ '$' :: e2), n⟩ c2).2.lookup_comment registry e
          = .ok (some c2)) := by
    intro reg registry e hreg1 hreg2 hl hshare hnoname hnoloc
    have hfind1 := find_register_of_some ⟨'$' :: (f ++ '$' :: e2), n⟩ c2
      (find_after_register c1 hreg1 rfl)
    have hfind2 := find_after_register c2 hreg2 rfl
    have hbind : ((registry.unique_name e).bind fun u =>
        ((reg.register_comment ⟨'$' :: (f ++ '$' :: e1), n⟩ c1).2.register_comment
          ⟨'$' :: (f ++ '$' :: e2), n⟩ c2).2.find (comment_id.mk_name u)) = none := by
      cases hu : registry.unique_name e with
      | none => rfl
      | some u => simpa using hnoname u hu
    have hlocnone := hnoloc _ hmkl
    constructor
    · intro hname
      simp only [comment_registry.lookup_comment, hbind, hl, hmkl, hlocnone, hshare,
        hname, hmk1, hfind1, if_true]
    · intro hname
      simp only [comment_registry.lookup_comment, hbind, hl, hmkl, hlocnone, hshare,
        hname, hmk2, hfind2, if_true]
  refine ⟨_, _, hmk1, hmk2, ?_, ?_, hgen, ?_⟩
  · intro h
    exact hkne (congrArg comment_id.key h)
  · cases heq : detail.equivalent (comment_id.mk ('$' :: (f ++ '$' :: e1)) n)
        (comment_id.mk ('$' :: (f ++ '$' :: e2)) n) with
    | false => rfl
    | true => exact absurd ((equivalent_iff _ _).mp heq) hkne
  · intro registry e hl hshare
    obtain ⟨hr1, hr2⟩ := register_two c1 c2 hkne
    have hnone : ∀ probe : comment_id,
        probe ≠ ⟨'$' :: (f ++ '$' :: e1), n⟩ → probe ≠ ⟨'$' :: (f ++ '$' :: e2), n⟩ →
        ((comment_registry.empty.register_comment ⟨'$' :: (f ++ '$' :: e1), n⟩
          c1).2.register_comment ⟨'$' :: (f ++ '$' :: e2), n⟩ c2).2.find probe = none := by
      intro probe hp1 hp2
      rw [hr2, find_eq_none_iff]
      intro entry hmem
      simp only [List.mem_cons, List.mem_singleton, List.not_mem_nil, or_false] at hmem
      rcases hmem with h | h
      · rw [h]
        exact key_ne_of_ne (fun hc => hp1 hc.symm)
      · rw [h]
        exact key_ne_of_ne (fun hc => hp2 hc.symm)
    have hname_ne : ∀ (u e : List Char),
        comment_id.mk_name u ≠ ⟨'$' :: (f ++ '$' :: e), n⟩ := by
      intro u e h
      have := congrArg comment_id.line_ h
      simp only [comment_id.mk_name] at this
      exact hn0 this.symm
    have hloc_ne : ∀ e : List Char,
        comment_id.mk f n ≠ ⟨'$' :: (f ++ '$' :: e), n⟩ := by
      intro e h
      have := congrArg (fun id : comment_id => id.file_name_or_name_.length) h
      simp at this
      omega
    refine hgen comment_registry.empty registry e (by rw [hr1]) (by rw [hr2]) hl hshare
      ?_ ?_
    · intro u _
      exact hnone _ (hname_ne u e1) (hname_ne u e2)
    · intro loc hloc
      rw [hmkl] at hloc
      cases hloc
      exact hnone _ (hloc_ne e1) (hloc_ne e2)

/-- Witness of C12: "macros.h", line 10, "RED" and "BLUE". -/
theorem inline_disambiguation_witness :
    ((comment_registry.empty.register_comment ⟨"$macros.h$RED".toList, 10⟩
        sample_plain).2.register_comment ⟨"$macros.h$BLUE".toList, 10⟩
        sample_excluded).2.lookup_comment sample_macros sample_red
      = .ok (some sample_plain) ∧
    ((comment_registry.empty.register_comment ⟨"$macros.h$RED".toList, 10⟩
        sample_plain).2.register_comment ⟨"$macros.h$BLUE".toList, 10⟩
        sample_excluded).2.lookup_comment sample_macros sample_blue
      = .ok (some sample_excluded) := by
  obtain ⟨id1, id2, hid1, hid2, _, _, _, hempty⟩ :=
    inline_disambiguation "macros.h".toList "RED".toList "BLUE".toList 10 sample_plain
      sample_excluded (by decide) (by decide) (by decide) (by decide)
  have hv1 : comment_id.mk_inline_location "macros.h".toList 10 "RED".toList
      = .ok ⟨"$macros.h$RED".toList, 10⟩ := by decide
  have hv2 : comment_id.mk_inline_location "macros.h".toList 10 "BLUE".toList
      = .ok ⟨"$macros.h$BLUE".toList, 10⟩ := by decide
  rw [hv1] at hid1
  rw [hv2] at hid2
  cases hid1
  cases hid2
  exact ⟨(hempty sample_macros sample_red rfl rfl).1 rfl,
    (hempty sample_macros sample_blue rfl rfl).2 rfl⟩

/-! ## Claims on comments -/

/-- C13: on a comment whose first child is a paragraph with section type brief,
`get_brief()` returns that first child; when the first child is not a paragraph, or is a
paragraph with another section type, the call fails its assertion; and the const
overload gives the same result as the non-const one. -/
theorem get_brief_contract (first : md_entity) (rest : List md_entity) :
    (first = .paragraph .brief →
      (md_comment.mk (first :: rest)).get_brief = .ok first) ∧
    (first = .other → (md_comment.mk (first :: rest)).get_brief = .assertion_failed) ∧
    (∀ s : section_type, s ≠ .brief → first = .paragraph s →
      (md_comment.mk (first :: rest)).get_brief = .assertion_failed) ∧
    ((md_comment.mk (first :: rest)).get_brief.returns = true ↔
      first = .paragraph .brief) ∧
    (∀ c : md_comment, c.get_brief_const = c.get_brief) := by
  refine ⟨?_, ?_, ?_, ?_, ?_⟩
  · intro h
    subst h
    simp [md_comment.get_brief, md_entity.get_entity_type, md_entity.get_section_type]
  · intro h
    subst h
    simp [md_comment.get_brief, md_entity.get_entity_type]
  · intro s hs h
    subst h
    simp [md_comment.get_brief, md_entity.get_entity_type, md_entity.get_section_type, hs]
  · cases first with
    | other => simp [md_comment.get_brief, md_entity.get_entity_type, Result.returns]
    | paragraph s =>
      by_cases hs : s = .brief
      · simp [md_comment.get_brief, md_entity.get_entity_type,
          md_entity.get_section_type, Result.returns, hs]
      · simp [md_comment.get_brief, md_entity.get_entity_type,
          md_entity.get_section_type, Result.returns, hs]
  · intro c
    rfl

/-- Witness of C13: a brief paragraph followed by a details paragraph; a comment that
starts with another entity; a comment that starts with a paragraph of section 3. -/
theorem get_brief_contract_witness :
    (md_comment.mk [.paragraph .brief, .paragraph (.other 1)]).get_brief
      = .ok (.paragraph .brief) ∧
    (md_comment.mk [.other, .paragraph .brief]).get_brief = .assertion_failed ∧
    (md_comment.mk [.paragraph (.other 3), .paragraph .brief]).get_brief
      = .assertion_failed :=
  ⟨(get_brief_contract (.paragraph .brief) [.paragraph (.other 1)]).1 rfl,
   (get_brief_contract .other [.paragraph .brief]).2.1 rfl,
   (get_brief_contract (.paragraph (.other 3)) [.paragraph .brief]).2.2.1 (.other 3)
     (by decide) rfl⟩

/-- C17: a freshly constructed comment is not excluded and has no override; after
`set_unique_name_override(n)` the override read back is `n`, `has_unique_name_override()`
holds exactly when `n` is not empty, and `is_excluded()` is unchanged; `set_excluded(b)`
makes `is_excluded()` return `b` and leaves the override unchanged. -/
theorem unique_name_override_frame :
    (∀ content : md_comment, ∃ c, comment.mk_default (some content) = .ok c ∧
      c.is_excluded = false ∧ c.has_unique_name_override = false ∧
      c.get_unique_name_override = []) ∧
    (∀ (c : comment) (n : List Char),
      (c.set_unique_name_override n).get_unique_name_override = n ∧
      ((c.set_unique_name_override n).has_unique_name_override = true ↔ n ≠ []) ∧
      (c.set_unique_name_override n).is_excluded = c.is_excluded) ∧
    (∀ (c : comment) (b : Bool),
      (c.set_excluded b).is_excluded = b ∧
      (c.set_excluded b).get_unique_name_override = c.get_unique_name_override ∧
      (c.set_excluded b).has_unique_name_override = c.has_unique_name_override) := by
  refine ⟨?_, ?_, ?_⟩
  · intro content
    exact ⟨⟨[], content, false⟩, rfl, rfl, rfl, rfl⟩
  · intro c n
    refine ⟨rfl, ?_, rfl⟩
    cases n <;>
      simp [comment.has_unique_name_override, comment.get_unique_name_override,
        comment.set_unique_name_override]
  · intro c b
    exact ⟨rfl, rfl, rfl⟩

end standardese
